import Mathlib

/-!
# Verification of the Map-Creator segment-reconciliation pipeline

Shallow embedding of the reconciliation core of the Map-Creator repository
(`jsonfix.py`, `vectorize.py`, `pipeline_extend_endpoints.py`,
`group_stair_polygons.py`, `pipeline_match.py`) together with proofs and
refutations of its specified properties.

Conventions used throughout:
* pixel coordinates are integers (`ℤ`), exactly as in the JSON data;
* intermediate real-valued geometry (parameters `t`, intersection points,
  means) is carried out in `ℚ`; every comparison the Python code performs on a
  Euclidean distance (a square root) is modelled by the equivalent comparison
  of squared distances, which is exact;
* Python's `round` (banker's rounding, round-half-to-even) is modelled by
  `pyRound`;
* Python `dict`s preserve insertion order, which the list-based embeddings
  reproduce.
-/

set_option maxRecDepth 40000

namespace MapCreator

/-- Python's `round` on a rational: round half to even (banker's rounding). -/
def pyRound (q : ℚ) : ℤ :=
  if q - (⌊q⌋ : ℚ) < 1/2 then ⌊q⌋
  else if 1/2 < q - (⌊q⌋ : ℚ) then ⌊q⌋ + 1
  else if Even ⌊q⌋ then ⌊q⌋ else ⌊q⌋ + 1

theorem pyRound_intCast (n : ℤ) : pyRound (n : ℚ) = n := by
  simp [pyRound]

/-- `pyRound` never moves below the floor. -/
theorem le_pyRound (q : ℚ) : ⌊q⌋ ≤ pyRound q := by
  unfold pyRound
  split
  · exact le_refl _
  · split
    · omega
    · split <;> omega

/-- `pyRound` never moves above the ceiling. -/
theorem pyRound_le (q : ℚ) : pyRound q ≤ ⌈q⌉ := by
  have h1 : ⌊q⌋ ≤ ⌈q⌉ := Int.floor_le_ceil q
  have hup : ∀ h : ¬ (q - (⌊q⌋ : ℚ) < 1/2), ⌊q⌋ + 1 ≤ ⌈q⌉ := by
    intro h
    push_neg at h
    have hq : (⌊q⌋ : ℚ) < q := by linarith
    have hc : (⌊q⌋ : ℚ) < (⌈q⌉ : ℚ) := lt_of_lt_of_le hq (Int.le_ceil q)
    exact_mod_cast hc
  unfold pyRound
  split
  · exact h1
  · rename_i h
    split
    · exact hup h
    · split
      · exact h1
      · exact hup h

/-- A rational between two integer bounds rounds (half-to-even) to a value
between the same bounds. -/
theorem pyRound_mem_Icc {a b : ℤ} {q : ℚ} (ha : (a : ℚ) ≤ q) (hb : q ≤ (b : ℚ)) :
    a ≤ pyRound q ∧ pyRound q ≤ b := by
  constructor
  · exact le_trans (Int.le_floor.mpr ha) (le_pyRound q)
  · exact le_trans (pyRound_le q) (Int.ceil_le.mpr hb)

/-! ## GridAligner: `jsonfix.py` (`align_walls_globally`, `get_snap_rules`) -/

/-- A line segment `{x1, y1, x2, y2}` with integer pixel coordinates. -/
structure Line where
  x1 : ℤ
  y1 : ℤ
  x2 : ℤ
  y2 : ℤ
  deriving DecidableEq, Repr

def GLOBAL_ALIGN_THRESHOLD : ℤ := 20

def SKEW_TOLERANCE : ℤ := 15

/-- A line participates in grid pooling iff it is near-vertical or
near-horizontal (`jsonfix.py` lines 31/41); both branches contribute
`x1, x2` to the X pool and `y1, y2` to the Y pool. -/
def poolsLine (l : Line) : Bool :=
  |l.x1 - l.x2| < SKEW_TOLERANCE ∨ |l.y1 - l.y2| < SKEW_TOLERANCE

/-- The X-grid coordinate pool (`v_x_coords`). -/
def vXCoords (lines : List Line) : List ℤ :=
  lines.flatMap fun l => if poolsLine l then [l.x1, l.x2] else []

/-- The Y-grid coordinate pool (`h_y_coords`). -/
def hYCoords (lines : List Line) : List ℤ :=
  lines.flatMap fun l => if poolsLine l then [l.y1, l.y2] else []

/-- Insert into a strictly sorted list, dropping duplicates
(`sorted(list(set(coords)))`). -/
def insertSorted (x : ℤ) : List ℤ → List ℤ
  | [] => [x]
  | y :: ys =>
    if x < y then x :: y :: ys
    else if x = y then y :: ys
    else y :: insertSorted x ys

/-- Sorted deduplicated coordinates, ascending. -/
def sortedDedup (l : List ℤ) : List ℤ := l.foldr insertSorted []

/-- Greedy clustering of an ascending coordinate list: a value joins the
current cluster iff its gap to the previous value is at most `t`
(`get_snap_rules`, the loop over `unique_coords`). -/
def clustersOf (t : ℤ) : List ℤ → List (List ℤ)
  | [] => []
  | [x] => [[x]]
  | x :: y :: xs =>
    match clustersOf t (y :: xs) with
    | [] => [[x]]
    | c :: cs => if y - x ≤ t then (x :: c) :: cs else [x] :: c :: cs

def listMin : List ℤ → ℤ
  | [] => 0
  | x :: xs => xs.foldl min x

def listMax : List ℤ → ℤ
  | [] => 0
  | x :: xs => xs.foldl max x

/-- A snap rule `{min, max, target}`. -/
structure SnapRule where
  min : ℤ
  max : ℤ
  target : ℤ
  deriving DecidableEq, Repr

/-- `get_snap_rules(coords, threshold)`: cluster the sorted unique
coordinates, then emit `{min: cluster.min - 2, max: cluster.max + 2,
target: round(mean(cluster))}` per cluster. -/
def getSnapRules (coords : List ℤ) (threshold : ℤ) : List SnapRule :=
  (clustersOf threshold (sortedDedup coords)).map fun c =>
    ⟨listMin c - 2, listMax c + 2, pyRound ((c.sum : ℚ) / (c.length : ℚ))⟩

/-- Apply the rules to one coordinate: each matching rule overwrites the
result (last match wins); the condition tests the original coordinate. -/
def applySnapRules (rules : List SnapRule) (c : ℤ) : ℤ :=
  rules.foldl (fun acc r => if r.min ≤ c ∧ c ≤ r.max then r.target else acc) c

/-- Rewrite one line's four coordinates (X rules on `x1/x2`, Y rules on
`y1/y2`), `jsonfix.py` lines 94-116. -/
def alignLineWith (xRules yRules : List SnapRule) (l : Line) : Line :=
  ⟨applySnapRules xRules l.x1, applySnapRules yRules l.y1,
   applySnapRules xRules l.x2, applySnapRules yRules l.y2⟩

/-- `align_walls_globally` without the file I/O: build both rule sets from
the pools, then rewrite every line. -/
def alignWallsGlobally (lines : List Line) : List Line :=
  lines.map
    (alignLineWith (getSnapRules (vXCoords lines) GLOBAL_ALIGN_THRESHOLD)
      (getSnapRules (hYCoords lines) GLOBAL_ALIGN_THRESHOLD))

/-- C1's claimed property, as stated: alignment is idempotent on every list. -/
def gridAlignerIdempotentOn (lines : List Line) : Prop :=
  alignWallsGlobally (alignWallsGlobally lines) = alignWallsGlobally lines

/-- C2's claimed property, as stated: every rewritten coordinate moves by at
most `GLOBAL_ALIGN_THRESHOLD + 2`. -/
def snapLocalityClaim (lines : List Line) : Prop :=
  ∀ p ∈ lines.zip (alignWallsGlobally lines),
    (p.2.x1 ≠ p.1.x1 → |p.1.x1 - p.2.x1| ≤ GLOBAL_ALIGN_THRESHOLD + 2) ∧
    (p.2.y1 ≠ p.1.y1 → |p.1.y1 - p.2.y1| ≤ GLOBAL_ALIGN_THRESHOLD + 2) ∧
    (p.2.x2 ≠ p.1.x2 → |p.1.x2 - p.2.x2| ≤ GLOBAL_ALIGN_THRESHOLD + 2) ∧
    (p.2.y2 ≠ p.1.y2 → |p.1.y2 - p.2.y2| ≤ GLOBAL_ALIGN_THRESHOLD + 2)

/-! ### Sorting and clustering lemmas -/

theorem mem_insertSorted {a x : ℤ} : ∀ {l : List ℤ}, a ∈ insertSorted x l ↔ a = x ∨ a ∈ l := by
  intro l
  induction l with
  | nil => simp [insertSorted]
  | cons y ys ih =>
    simp only [insertSorted]
    split
    · simp [or_left_comm, or_assoc]
    · split
      · rename_i hlt heq
        subst heq
        simp only [List.mem_cons]
        constructor
        · exact fun h => Or.inr h
        · rintro (h | h)
          · exact Or.inl h
          · exact h
      · simp only [List.mem_cons, ih]
        tauto

theorem sorted_insertSorted {x : ℤ} :
    ∀ {l : List ℤ}, l.Sorted (· < ·) → (insertSorted x l).Sorted (· < ·) := by
  intro l
  induction l with
  | nil => intro _; simp [insertSorted]
  | cons y ys ih =>
    intro hs
    rw [List.sorted_cons] at hs
    obtain ⟨hy, hys⟩ := hs
    simp only [insertSorted]
    split
    · rename_i hlt
      rw [List.sorted_cons]
      refine ⟨?_, by rw [List.sorted_cons]; exact ⟨hy, hys⟩⟩
      intro b hb
      rcases List.mem_cons.mp hb with h | h
      · omega
      · exact lt_trans hlt (hy b h)
    · split
      · rw [List.sorted_cons]; exact ⟨hy, hys⟩
      · rename_i h1 h2
        rw [List.sorted_cons]
        constructor
        · intro b hb
          rcases mem_insertSorted.mp hb with h | h
          · omega
          · exact hy b h
        · exact ih hys

theorem sorted_sortedDedup (l : List ℤ) : (sortedDedup l).Sorted (· < ·) := by
  induction l with
  | nil => simp [sortedDedup, List.Sorted]
  | cons x xs ih => exact sorted_insertSorted ih

theorem mem_sortedDedup {a : ℤ} : ∀ {l : List ℤ}, a ∈ sortedDedup l ↔ a ∈ l := by
  intro l
  induction l with
  | nil => simp [sortedDedup]
  | cons x xs ih =>
    show a ∈ insertSorted x (sortedDedup xs) ↔ _
    rw [mem_insertSorted, ih]
    simp

theorem clustersOf_head (t : ℤ) (y : ℤ) (xs : List ℤ) :
    ∃ c' cs, clustersOf t (y :: xs) = (y :: c') :: cs := by
  induction xs generalizing y with
  | nil => exact ⟨[], [], rfl⟩
  | cons z zs ih =>
    obtain ⟨c', cs, hc⟩ := ih z
    by_cases h : z - y ≤ t
    · exact ⟨z :: c', cs, by simp [clustersOf, hc, h]⟩
    · exact ⟨[], (z :: c') :: cs, by simp [clustersOf, hc, h]⟩

theorem clustersOf_join (t : ℤ) : ∀ l : List ℤ, (clustersOf t l).flatten = l := by
  intro l
  match l with
  | [] => rfl
  | [x] => rfl
  | x :: y :: xs =>
    have ih := clustersOf_join t (y :: xs)
    obtain ⟨c', cs, hc⟩ := clustersOf_head t y xs
    rw [hc] at ih
    simp only [List.flatten_cons] at ih
    by_cases h : y - x ≤ t
    · have he : clustersOf t (x :: y :: xs) = (x :: y :: c') :: cs := by
        simp [clustersOf, hc, h]
      rw [he]
      simp only [List.flatten_cons, List.cons_append]
      rw [List.cons_inj_right]
      exact ih
    · have he : clustersOf t (x :: y :: xs) = [x] :: (y :: c') :: cs := by
        simp [clustersOf, hc, h]
      rw [he]
      simp only [List.flatten_cons, List.cons_append, List.nil_append]
      rw [List.cons_inj_right]
      exact ih

theorem clustersOf_ne_nil (t : ℤ) : ∀ l : List ℤ, ∀ c ∈ clustersOf t l, c ≠ [] := by
  intro l
  match l with
  | [] => intro c hc; simp [clustersOf] at hc
  | [x] => intro c hc; simp [clustersOf] at hc; simp [hc]
  | x :: y :: xs =>
    have ih := clustersOf_ne_nil t (y :: xs)
    intro c hc
    obtain ⟨c', cs, hcl⟩ := clustersOf_head t y xs
    by_cases h : y - x ≤ t
    · have he : clustersOf t (x :: y :: xs) = (x :: y :: c') :: cs := by
        simp [clustersOf, hcl, h]
      rw [he] at hc
      rcases List.mem_cons.mp hc with h' | h'
      · simp [h']
      · exact ih c (hcl ▸ List.mem_cons_of_mem (y :: c') h')
    · have he : clustersOf t (x :: y :: xs) = [x] :: (y :: c') :: cs := by
        simp [clustersOf, hcl, h]
      rw [he] at hc
      rcases List.mem_cons.mp hc with h' | h'
      · simp [h']
      · exact ih c (hcl ▸ h')

theorem mem_of_mem_clustersOf {t a : ℤ} {c : List ℤ} {l : List ℤ}
    (hc : c ∈ clustersOf t l) (ha : a ∈ c) : a ∈ l := by
  rw [← clustersOf_join t l]
  exact List.mem_flatten.mpr ⟨c, hc, ha⟩

theorem exists_cluster_mem {t a : ℤ} {l : List ℤ} (ha : a ∈ l) :
    ∃ c ∈ clustersOf t l, a ∈ c := by
  rw [← clustersOf_join t l] at ha
  exact List.mem_flatten.mp ha

/-- In the clustering of a strictly ascending list, every element of an
earlier cluster is more than `t` below every element of a later cluster. -/
theorem clusters_pairwise_sep (t : ℤ) :
    ∀ l : List ℤ, l.Sorted (· < ·) →
      (clustersOf t l).Pairwise (fun c d => ∀ a ∈ c, ∀ b ∈ d, a + t < b) := by
  intro l
  match l with
  | [] => intro _; simp [clustersOf]
  | [x] => intro _; simp [clustersOf]
  | x :: y :: xs =>
    intro hs
    rw [List.sorted_cons] at hs
    obtain ⟨hx, hs'⟩ := hs
    have ih := clusters_pairwise_sep t (y :: xs) hs'
    obtain ⟨c', cs, hc⟩ := clustersOf_head t y xs
    rw [hc] at ih
    by_cases hyx : y - x ≤ t
    · have he : clustersOf t (x :: y :: xs) = (x :: y :: c') :: cs := by
        simp [clustersOf, hc, hyx]
      rw [he]
      rw [List.pairwise_cons] at ih ⊢
      obtain ⟨ihc, ihcs⟩ := ih
      refine ⟨?_, ihcs⟩
      intro d hd a ha b hb
      rcases List.mem_cons.mp ha with h | h
      · subst h
        have : y + t < b := ihc d hd y (List.mem_cons_self y c') b hb
        have : a < y := hx y (List.mem_cons_self y xs)
        omega
      · exact ihc d hd a h b hb
    · have he : clustersOf t (x :: y :: xs) = [x] :: (y :: c') :: cs := by
        simp [clustersOf, hc, hyx]
      rw [he]
      rw [List.pairwise_cons]
      refine ⟨?_, ih⟩
      intro d hd a ha b hb
      have ha' : a = x := by simpa using ha
      subst ha'
      have hb' : b ∈ y :: xs := mem_of_mem_clustersOf (hc ▸ hd) hb
      rcases List.mem_cons.mp hb' with h | h
      · subst h; omega
      · have h1 : a < y := hx y (List.mem_cons_self y xs)
        have h2 : y < b := (List.sorted_cons.mp hs').1 b h
        omega

/-! ### Min / max / mean lemmas for clusters -/

theorem foldl_min_le_init : ∀ (xs : List ℤ) (i : ℤ), xs.foldl min i ≤ i := by
  intro xs
  induction xs with
  | nil => intro i; exact le_refl i
  | cons x xs ih => intro i; exact le_trans (ih (min i x)) (min_le_left i x)

theorem foldl_min_le_mem : ∀ (xs : List ℤ) (i a : ℤ), a ∈ xs → xs.foldl min i ≤ a := by
  intro xs
  induction xs with
  | nil => intro i a ha; simp at ha
  | cons x xs ih =>
    intro i a ha
    rcases List.mem_cons.mp ha with h | h
    · subst h
      exact le_trans (foldl_min_le_init xs (min i a)) (min_le_right i a)
    · exact ih (min i x) a h

theorem foldl_min_mem : ∀ (xs : List ℤ) (i : ℤ), xs.foldl min i = i ∨ xs.foldl min i ∈ xs := by
  intro xs
  induction xs with
  | nil => intro i; exact Or.inl rfl
  | cons x xs ih =>
    intro i
    rcases ih (min i x) with h | h
    · rcases min_choice i x with hm | hm
      · exact Or.inl (by rw [List.foldl_cons, h, hm])
      · refine Or.inr ?_
        rw [List.foldl_cons, h, hm]
        exact List.mem_cons_self x xs
    · exact Or.inr (List.mem_cons_of_mem x h)

theorem init_le_foldl_max : ∀ (xs : List ℤ) (i : ℤ), i ≤ xs.foldl max i := by
  intro xs
  induction xs with
  | nil => intro i; exact le_refl i
  | cons x xs ih => intro i; exact le_trans (le_max_left i x) (ih (max i x))

theorem mem_le_foldl_max : ∀ (xs : List ℤ) (i a : ℤ), a ∈ xs → a ≤ xs.foldl max i := by
  intro xs
  induction xs with
  | nil => intro i a ha; simp at ha
  | cons x xs ih =>
    intro i a ha
    rcases List.mem_cons.mp ha with h | h
    · subst h
      exact le_trans (le_max_right i a) (init_le_foldl_max xs (max i a))
    · exact ih (max i x) a h

theorem foldl_max_mem : ∀ (xs : List ℤ) (i : ℤ), xs.foldl max i = i ∨ xs.foldl max i ∈ xs := by
  intro xs
  induction xs with
  | nil => intro i; exact Or.inl rfl
  | cons x xs ih =>
    intro i
    rcases ih (max i x) with h | h
    · rcases max_choice i x with hm | hm
      · exact Or.inl (by rw [List.foldl_cons, h, hm])
      · refine Or.inr ?_
        rw [List.foldl_cons, h, hm]
        exact List.mem_cons_self x xs
    · exact Or.inr (List.mem_cons_of_mem x h)

theorem listMin_le {c : List ℤ} (hne : c ≠ []) : ∀ a ∈ c, listMin c ≤ a := by
  match c with
  | [] => exact absurd rfl hne
  | x :: xs =>
    intro a ha
    rcases List.mem_cons.mp ha with h | h
    · subst h; exact foldl_min_le_init xs a
    · exact foldl_min_le_mem xs x a h

theorem le_listMax {c : List ℤ} (hne : c ≠ []) : ∀ a ∈ c, a ≤ listMax c := by
  match c with
  | [] => exact absurd rfl hne
  | x :: xs =>
    intro a ha
    rcases List.mem_cons.mp ha with h | h
    · subst h; exact init_le_foldl_max xs a
    · exact mem_le_foldl_max xs x a h

theorem listMin_mem {c : List ℤ} (hne : c ≠ []) : listMin c ∈ c := by
  match c with
  | [] => exact absurd rfl hne
  | x :: xs =>
    rcases foldl_min_mem xs x with h | h
    · rw [listMin, h]; exact List.mem_cons_self x xs
    · rw [listMin]; exact List.mem_cons_of_mem x h

theorem listMax_mem {c : List ℤ} (hne : c ≠ []) : listMax c ∈ c := by
  match c with
  | [] => exact absurd rfl hne
  | x :: xs =>
    rcases foldl_max_mem xs x with h | h
    · rw [listMax, h]; exact List.mem_cons_self x xs
    · rw [listMax]; exact List.mem_cons_of_mem x h

theorem sum_le_card_mul {c : List ℤ} {M : ℤ} (h : ∀ a ∈ c, a ≤ M) :
    c.sum ≤ (c.length : ℤ) * M := by
  induction c with
  | nil => simp
  | cons x xs ih =>
    have hx := h x (List.mem_cons_self x xs)
    have hxs := ih fun a ha => h a (List.mem_cons_of_mem x ha)
    simp only [List.sum_cons, List.length_cons]
    push_cast
    linarith

theorem card_mul_le_sum {c : List ℤ} {m : ℤ} (h : ∀ a ∈ c, m ≤ a) :
    (c.length : ℤ) * m ≤ c.sum := by
  induction c with
  | nil => simp
  | cons x xs ih =>
    have hx := h x (List.mem_cons_self x xs)
    have hxs := ih fun a ha => h a (List.mem_cons_of_mem x ha)
    simp only [List.sum_cons, List.length_cons]
    push_cast
    linarith

/-- The rounded cluster mean lies between the cluster's min and max. -/
theorem target_mem_cluster_range {c : List ℤ} (hne : c ≠ []) :
    listMin c ≤ pyRound ((c.sum : ℚ) / (c.length : ℚ)) ∧
      pyRound ((c.sum : ℚ) / (c.length : ℚ)) ≤ listMax c := by
  have hlen : 0 < (c.length : ℚ) := by
    have : 0 < c.length := List.length_pos.mpr hne
    exact_mod_cast this
  have hlo : ((listMin c : ℤ) : ℚ) ≤ (c.sum : ℚ) / (c.length : ℚ) := by
    rw [le_div_iff₀ hlen]
    have h2 : listMin c * (c.length : ℤ) ≤ c.sum := by
      linarith [card_mul_le_sum (listMin_le hne)]
    exact_mod_cast h2
  have hhi : (c.sum : ℚ) / (c.length : ℚ) ≤ ((listMax c : ℤ) : ℚ) := by
    rw [div_le_iff₀ hlen]
    have h2 : c.sum ≤ listMax c * (c.length : ℤ) := by
      linarith [sum_le_card_mul (le_listMax hne)]
    exact_mod_cast h2
  exact pyRound_mem_Icc hlo hhi

/-! ### Snap-rule lemmas -/

theorem exists_rule_cover {coords : List ℤ} {t a : ℤ} (ha : a ∈ coords) :
    ∃ r ∈ getSnapRules coords t, r.min ≤ a ∧ a ≤ r.max := by
  have ha' : a ∈ sortedDedup coords := mem_sortedDedup.mpr ha
  obtain ⟨c, hc, hac⟩ := exists_cluster_mem (t := t) ha'
  have hne := clustersOf_ne_nil t _ c hc
  refine ⟨⟨listMin c - 2, listMax c + 2, pyRound ((c.sum : ℚ) / (c.length : ℚ))⟩,
    List.mem_map_of_mem _ hc, ?_, ?_⟩
  · show listMin c - 2 ≤ a
    have := listMin_le hne a hac
    omega
  · show a ≤ listMax c + 2
    have := le_listMax hne a hac
    omega

theorem rule_target_range {coords : List ℤ} {t : ℤ} :
    ∀ r ∈ getSnapRules coords t, r.min + 2 ≤ r.target ∧ r.target ≤ r.max - 2 := by
  intro r hr
  obtain ⟨c, hc, rfl⟩ := List.mem_map.mp hr
  have hne := clustersOf_ne_nil t _ c hc
  have h := target_mem_cluster_range hne
  exact ⟨by simp only; omega, by simp only; omega⟩

theorem rules_pairwise_sep (coords : List ℤ) (t : ℤ) :
    (getSnapRules coords t).Pairwise (fun r r' => r.max + (t - 4) < r'.min) := by
  unfold getSnapRules
  rw [List.pairwise_map]
  have hsep := clusters_pairwise_sep t (sortedDedup coords) (sorted_sortedDedup coords)
  refine List.Pairwise.imp_of_mem ?_ hsep
  intro c d hcmem hdmem h
  have hnc := clustersOf_ne_nil t _ c hcmem
  have hnd := clustersOf_ne_nil t _ d hdmem
  have h1 : listMax c + t < listMin d :=
    h (listMax c) (listMax_mem hnc) (listMin d) (listMin_mem hnd)
  simp only
  omega

theorem snapFold_no_match {a : ℤ} :
    ∀ (rules : List SnapRule), (∀ r ∈ rules, ¬(r.min ≤ a ∧ a ≤ r.max)) →
      ∀ init, rules.foldl (fun acc r => if r.min ≤ a ∧ a ≤ r.max then r.target else acc) init =
        init := by
  intro rules
  induction rules with
  | nil => intro _ init; rfl
  | cons r0 rest ih =>
    intro h init
    have h0 : ¬(r0.min ≤ a ∧ a ≤ r0.max) := h r0 (List.mem_cons_self r0 rest)
    simp only [List.foldl_cons, if_neg h0]
    exact ih (fun r hr => h r (List.mem_cons_of_mem r0 hr)) init

theorem snapFold_eq_target {a : ℤ} {r : SnapRule} :
    ∀ (rules : List SnapRule), r ∈ rules → r.min ≤ a → a ≤ r.max →
      rules.Pairwise (fun r1 r2 => r1.max < r2.min) →
      ∀ init, rules.foldl (fun acc r => if r.min ≤ a ∧ a ≤ r.max then r.target else acc) init =
        r.target := by
  intro rules
  induction rules with
  | nil => intro h; simp at h
  | cons r0 rest ih =>
    intro hmem hlo hhi hpw init
    rw [List.pairwise_cons] at hpw
    obtain ⟨hd, hrest⟩ := hpw
    rcases List.mem_cons.mp hmem with h | h
    · subst h
      rw [List.foldl_cons, if_pos (show r.min ≤ a ∧ a ≤ r.max from ⟨hlo, hhi⟩)]
      refine snapFold_no_match rest ?_ r.target
      intro r' hr'
      have := hd r' hr'
      omega
    · have h0 : ¬(r0.min ≤ a ∧ a ≤ r0.max) := by
        have := hd r h
        omega
      simp only [List.foldl_cons, if_neg h0]
      exact ih h hlo hhi hrest init

theorem applySnapRules_eq_target {coords : List ℤ} {t a : ℤ} {r : SnapRule} (ht : 4 ≤ t)
    (hr : r ∈ getSnapRules coords t) (hlo : r.min ≤ a) (hhi : a ≤ r.max) :
    applySnapRules (getSnapRules coords t) a = r.target := by
  refine snapFold_eq_target _ hr hlo hhi ?_ a
  refine List.Pairwise.imp ?_ (rules_pairwise_sep coords t)
  intro r1 r2 h
  omega

/-- Two pooled coordinates within the clustering threshold of each other are
rewritten to the same target. -/
theorem applySnapRules_eq_of_close {coords : List ℤ} {t a b : ℤ} (ht : 4 ≤ t)
    (ha : a ∈ coords) (hb : b ∈ coords) (hab : |a - b| ≤ t) :
    applySnapRules (getSnapRules coords t) a = applySnapRules (getSnapRules coords t) b := by
  obtain ⟨ca, hca, haca⟩ := exists_cluster_mem (t := t) (mem_sortedDedup.mpr ha)
  obtain ⟨cb, hcb, hbcb⟩ := exists_cluster_mem (t := t) (mem_sortedDedup.mpr hb)
  have hsep := clusters_pairwise_sep t (sortedDedup coords) (sorted_sortedDedup coords)
  rw [abs_le] at hab
  have hcacb : ca = cb := by
    by_contra hne
    have hsym : Symmetric (fun c d : List ℤ =>
        (∀ a ∈ c, ∀ b ∈ d, a + t < b) ∨ (∀ a ∈ d, ∀ b ∈ c, a + t < b)) := by
      intro c d h
      tauto
    have hpw := List.Pairwise.imp
      (fun {c d} h => (Or.inl h : (∀ a ∈ c, ∀ b ∈ d, a + t < b) ∨ (∀ a ∈ d, ∀ b ∈ c, a + t < b)))
      hsep
    have := List.Pairwise.forall hsym hpw hca hcb hne
    rcases this with h | h
    · have := h a haca b hbcb
      omega
    · have := h b hbcb a haca
      omega
  subst hcacb
  have hnc := clustersOf_ne_nil t _ ca hca
  set r : SnapRule :=
    ⟨listMin ca - 2, listMax ca + 2, pyRound ((ca.sum : ℚ) / (ca.length : ℚ))⟩ with hrdef
  have hrmem : r ∈ getSnapRules coords t := List.mem_map_of_mem _ hca
  have h1 := applySnapRules_eq_target ht hrmem (a := a)
    (by simp [hrdef]; have := listMin_le hnc a haca; omega)
    (by simp [hrdef]; have := le_listMax hnc a haca; omega)
  have h2 := applySnapRules_eq_target ht hrmem (a := b)
    (by simp [hrdef]; have := listMin_le hnc b hbcb; omega)
    (by simp [hrdef]; have := le_listMax hnc b hbcb; omega)
  rw [h1, h2]

/-! ### Idempotence on axis-aligned inputs -/

theorem mem_vXCoords {lines : List Line} {l : Line} (hl : l ∈ lines) (hp : poolsLine l) :
    l.x1 ∈ vXCoords lines ∧ l.x2 ∈ vXCoords lines := by
  constructor <;>
  · unfold vXCoords
    rw [List.mem_flatMap]
    exact ⟨l, hl, by simp [hp]⟩

theorem mem_hYCoords {lines : List Line} {l : Line} (hl : l ∈ lines) (hp : poolsLine l) :
    l.y1 ∈ hYCoords lines ∧ l.y2 ∈ hYCoords lines := by
  constructor <;>
  · unfold hYCoords
    rw [List.mem_flatMap]
    exact ⟨l, hl, by simp [hp]⟩

theorem applySnapRules_mem_target {coords : List ℤ} {t a : ℤ} (ht : 4 ≤ t) (ha : a ∈ coords) :
    ∃ r ∈ getSnapRules coords t, applySnapRules (getSnapRules coords t) a = r.target := by
  obtain ⟨r, hr, h1, h2⟩ := exists_rule_cover (t := t) ha
  exact ⟨r, hr, applySnapRules_eq_target ht hr h1 h2⟩

theorem rules_target_sep (coords : List ℤ) (t : ℤ) :
    (getSnapRules coords t).Pairwise (fun r r' => r.target + t < r'.target) := by
  refine List.Pairwise.imp_of_mem ?_ (rules_pairwise_sep coords t)
  intro r r' hr hr' h
  have h1 := rule_target_range r hr
  have h2 := rule_target_range r' hr'
  omega

theorem clustersOf_singletons {t : ℤ} :
    ∀ l : List ℤ, l.Sorted (· < ·) → (∀ a ∈ l, ∀ b ∈ l, a < b → a + t < b) →
      clustersOf t l = l.map (fun x => [x]) := by
  intro l
  match l with
  | [] => intro _ _; rfl
  | [x] => intro _ _; rfl
  | x :: y :: xs =>
    intro hs hsep
    have hx : x < y := (List.sorted_cons.mp hs).1 y (List.mem_cons_self y xs)
    have hxy : x + t < y := hsep x (by simp) y (by simp) hx
    have ih := clustersOf_singletons (y :: xs) (List.sorted_cons.mp hs).2
      (fun a ha b hb hab =>
        hsep a (List.mem_cons_of_mem x ha) b (List.mem_cons_of_mem x hb) hab)
    obtain ⟨c', cs, hc⟩ := clustersOf_head t y xs
    have h : ¬(y - x ≤ t) := by omega
    have he : clustersOf t (x :: y :: xs) = [x] :: (y :: c') :: cs := by
      simp [clustersOf, hc, h]
    rw [he, List.map_cons, ← hc, ih]

/-- On a pool whose values are pairwise separated by more than the threshold,
every pooled value is its own snap target (clusters are singletons). -/
theorem applySnapRules_self_of_sep {pool : List ℤ} {t : ℤ} (ht : 4 ≤ t)
    (hsep : ∀ a ∈ pool, ∀ b ∈ pool, a < b → a + t < b) :
    ∀ v ∈ pool, applySnapRules (getSnapRules pool t) v = v := by
  intro v hv
  have hsep' : ∀ a ∈ sortedDedup pool, ∀ b ∈ sortedDedup pool, a < b → a + t < b := by
    intro a ha b hb
    exact hsep a (mem_sortedDedup.mp ha) b (mem_sortedDedup.mp hb)
  have hG := clustersOf_singletons (sortedDedup pool) (sorted_sortedDedup pool) hsep'
  have hrules : getSnapRules pool t =
      (sortedDedup pool).map (fun x => ⟨x - 2, x + 2, x⟩) := by
    unfold getSnapRules
    rw [hG, List.map_map]
    refine List.map_congr_left ?_
    intro x _
    simp [listMin, listMax, Function.comp, pyRound_intCast]
  have hvd : v ∈ sortedDedup pool := mem_sortedDedup.mpr hv
  have hrmem : (⟨v - 2, v + 2, v⟩ : SnapRule) ∈
      (sortedDedup pool).map (fun x : ℤ => (⟨x - 2, x + 2, x⟩ : SnapRule)) :=
    List.mem_map_of_mem _ hvd
  have hpw : ((sortedDedup pool).map (fun x : ℤ => (⟨x - 2, x + 2, x⟩ : SnapRule))).Pairwise
      (fun r1 r2 => r1.max < r2.min) := by
    rw [List.pairwise_map]
    refine List.Pairwise.imp_of_mem ?_ (sorted_sortedDedup pool)
    intro a b ha hb hab
    have := hsep' a ha b hb hab
    show a + 2 < b - 2
    omega
  have hfold := snapFold_eq_target _ hrmem (show v - 2 ≤ v by omega)
    (show v ≤ v + 2 by omega) hpw v
  rw [applySnapRules, hrules]
  exact hfold

theorem target_pool_sep {pool1 P2 : List ℤ} {t : ℤ} (ht : 0 ≤ t)
    (hT : ∀ v ∈ P2, ∃ r ∈ getSnapRules pool1 t, v = r.target) :
    ∀ a ∈ P2, ∀ b ∈ P2, a < b → a + t < b := by
  intro a ha b hb hab
  obtain ⟨r, hr, rfl⟩ := hT a ha
  obtain ⟨r', hr', rfl⟩ := hT b hb
  by_cases hrr : r = r'
  · subst hrr
    omega
  · have hsym : Symmetric (fun r1 r2 : SnapRule =>
        r1.target + t < r2.target ∨ r2.target + t < r1.target) := by
      intro r1 r2 h
      tauto
    have hpw := List.Pairwise.imp
      (fun {r1 r2} h =>
        (Or.inl h : r1.target + t < r2.target ∨ r2.target + t < r1.target))
      (rules_target_sep pool1 t)
    rcases List.Pairwise.forall hsym hpw hr hr' hrr with h | h
    · exact h
    · omega

/-- A pooled line stays pooled after alignment: its tight pair of coordinates
is snapped to a single common target. -/
theorem poolsLine_align {lines : List Line} {l : Line} (hl : l ∈ lines)
    (hp : ∀ l' ∈ lines, poolsLine l') :
    poolsLine (alignLineWith (getSnapRules (vXCoords lines) GLOBAL_ALIGN_THRESHOLD)
      (getSnapRules (hYCoords lines) GLOBAL_ALIGN_THRESHOLD) l) := by
  have hpl := hp l hl
  have hG : GLOBAL_ALIGN_THRESHOLD = 20 := rfl
  have hS : SKEW_TOLERANCE = 15 := rfl
  simp only [poolsLine, decide_eq_true_eq] at hpl ⊢
  unfold alignLineWith
  rcases hpl with h | h
  · left
    have hmem := mem_vXCoords hl (hp l hl)
    have heq := applySnapRules_eq_of_close (t := GLOBAL_ALIGN_THRESHOLD) (by decide)
      hmem.1 hmem.2 (by rw [abs_lt] at h; rw [abs_le]; omega)
    simp only [heq, sub_self, abs_zero]
    omega
  · right
    have hmem := mem_hYCoords hl (hp l hl)
    have heq := applySnapRules_eq_of_close (t := GLOBAL_ALIGN_THRESHOLD) (by decide)
      hmem.1 hmem.2 (by rw [abs_lt] at h; rw [abs_le]; omega)
    simp only [heq, sub_self, abs_zero]
    omega

theorem align_pool_targets_x {lines : List Line} (hp : ∀ l' ∈ lines, poolsLine l') :
    ∀ v ∈ vXCoords (alignWallsGlobally lines),
      ∃ r ∈ getSnapRules (vXCoords lines) GLOBAL_ALIGN_THRESHOLD, v = r.target := by
  intro v hv
  unfold vXCoords alignWallsGlobally at hv
  rw [List.mem_flatMap] at hv
  obtain ⟨l', hl', hvl⟩ := hv
  rw [List.mem_map] at hl'
  obtain ⟨l, hl, rfl⟩ := hl'
  rw [if_pos (poolsLine_align hl hp)] at hvl
  have hmem := mem_vXCoords hl (hp l hl)
  have h1 := applySnapRules_mem_target (t := GLOBAL_ALIGN_THRESHOLD) (by decide) hmem.1
  have h2 := applySnapRules_mem_target (t := GLOBAL_ALIGN_THRESHOLD) (by decide) hmem.2
  simp only [List.mem_cons, List.not_mem_nil, or_false] at hvl
  rcases hvl with h | h
  · obtain ⟨r, hr, he⟩ := h1
    exact ⟨r, hr, by rw [h, ← he]; rfl⟩
  · obtain ⟨r, hr, he⟩ := h2
    exact ⟨r, hr, by rw [h, ← he]; rfl⟩

theorem align_pool_targets_y {lines : List Line} (hp : ∀ l' ∈ lines, poolsLine l') :
    ∀ v ∈ hYCoords (alignWallsGlobally lines),
      ∃ r ∈ getSnapRules (hYCoords lines) GLOBAL_ALIGN_THRESHOLD, v = r.target := by
  intro v hv
  unfold hYCoords alignWallsGlobally at hv
  rw [List.mem_flatMap] at hv
  obtain ⟨l', hl', hvl⟩ := hv
  rw [List.mem_map] at hl'
  obtain ⟨l, hl, rfl⟩ := hl'
  rw [if_pos (poolsLine_align hl hp)] at hvl
  have hmem := mem_hYCoords hl (hp l hl)
  have h1 := applySnapRules_mem_target (t := GLOBAL_ALIGN_THRESHOLD) (by decide) hmem.1
  have h2 := applySnapRules_mem_target (t := GLOBAL_ALIGN_THRESHOLD) (by decide) hmem.2
  simp only [List.mem_cons, List.not_mem_nil, or_false] at hvl
  rcases hvl with h | h
  · obtain ⟨r, hr, he⟩ := h1
    exact ⟨r, hr, by rw [h, ← he]; rfl⟩
  · obtain ⟨r, hr, he⟩ := h2
    exact ⟨r, hr, by rw [h, ← he]; rfl⟩

/-- **C1, counterexample.** GridAligner is not idempotent: on this three-line
input the first pass snaps the skewed-vertical pool `{0, 14}` to `7`, which
turns the diagonal line `(16,200)-(0,250)` into the vertical `(7,200)-(7,250)`;
the second pass then pools its `y`-coordinates, clusters `{250, 260}` to `255`,
and moves both that line and the horizontal at `y = 260`. -/
theorem C1_grid_aligner_not_idempotent :
    ¬ gridAlignerIdempotentOn [⟨0, 0, 14, 1000⟩, ⟨16, 200, 0, 250⟩, ⟨100, 260, 300, 260⟩] := by
  unfold gridAlignerIdempotentOn
  with_unfolding_all decide

/-- **C1, amended.** GridAligner is idempotent on every input whose segments
are all near-vertical or near-horizontal (`|x1-x2| < SKEW_TOLERANCE` or
`|y1-y2| < SKEW_TOLERANCE`), i.e. on inputs where every line contributes to
the coordinate pools: after one pass every pooled coordinate equals a cluster
target, targets are pairwise separated by more than the threshold, so the
second pass clusters into singletons and rewrites nothing. -/
theorem C1_grid_aligner_idempotent_of_pooled (lines : List Line)
    (hp : ∀ l ∈ lines, poolsLine l) : gridAlignerIdempotentOn lines := by
  unfold gridAlignerIdempotentOn
  have hp' : ∀ l' ∈ alignWallsGlobally lines, poolsLine l' := by
    intro l' hl'
    unfold alignWallsGlobally at hl'
    rw [List.mem_map] at hl'
    obtain ⟨l, hl, rfl⟩ := hl'
    exact poolsLine_align hl hp
  have hsx := target_pool_sep (t := GLOBAL_ALIGN_THRESHOLD) (by decide)
    (align_pool_targets_x hp)
  have hsy := target_pool_sep (t := GLOBAL_ALIGN_THRESHOLD) (by decide)
    (align_pool_targets_y hp)
  have hx := applySnapRules_self_of_sep (t := GLOBAL_ALIGN_THRESHOLD) (by decide) hsx
  have hy := applySnapRules_self_of_sep (t := GLOBAL_ALIGN_THRESHOLD) (by decide) hsy
  show (alignWallsGlobally lines).map
      (alignLineWith
        (getSnapRules (vXCoords (alignWallsGlobally lines)) GLOBAL_ALIGN_THRESHOLD)
        (getSnapRules (hYCoords (alignWallsGlobally lines)) GLOBAL_ALIGN_THRESHOLD)) =
    alignWallsGlobally lines
  refine (List.map_congr_left ?_).trans (List.map_id _)
  intro l' hl'
  have hpw := hp' l' hl'
  have hm := mem_vXCoords hl' hpw
  have hmy := mem_hYCoords hl' hpw
  unfold alignLineWith
  rw [hx l'.x1 hm.1, hx l'.x2 hm.2, hy l'.y1 hmy.1, hy l'.y2 hmy.2]
  rfl

/-- Witness for C1's amended theorem: the spec's own grid-fusion scenario
(two verticals at `x = 100` and `x = 108`) is a fixed point after one pass. -/
theorem C1_grid_aligner_idempotent_witness :
    gridAlignerIdempotentOn [⟨100, 0, 100, 50⟩, ⟨108, 0, 108, 50⟩] :=
  C1_grid_aligner_idempotent_of_pooled _ (by decide)

/-- **C2, counterexample.** Snap locality fails as stated: four verticals at
`x = 0, 20, 40, 60` chain (each consecutive gap is exactly the threshold 20)
into a single cluster with target `30`, so the coordinate `0` is rewritten to
`30`, a move of `30 > threshold + 2 = 22`. -/
theorem C2_snap_locality_counterexample :
    ¬ snapLocalityClaim [⟨0, 0, 0, 100⟩, ⟨20, 0, 20, 100⟩, ⟨40, 0, 40, 100⟩, ⟨60, 0, 60, 100⟩] := by
  unfold snapLocalityClaim
  with_unfolding_all decide

/-- **C2, amended.** A coordinate rewritten by the snap rules moves to the
target of the unique rule whose interval contains it, and the move is bounded
by the rule's own width: `|original - target| ≤ (rule.max - rule.min) - 2`
(that is, the diameter of the rule's cluster plus 2). The fixed bound
`threshold + 2` holds only when the cluster spans at most the threshold. -/
theorem C2_snap_locality_bounded_by_rule (coords : List ℤ) (c : ℤ)
    (h : applySnapRules (getSnapRules coords GLOBAL_ALIGN_THRESHOLD) c ≠ c) :
    ∃ r ∈ getSnapRules coords GLOBAL_ALIGN_THRESHOLD,
      r.min ≤ c ∧ c ≤ r.max ∧
      applySnapRules (getSnapRules coords GLOBAL_ALIGN_THRESHOLD) c = r.target ∧
      |c - r.target| ≤ r.max - r.min - 2 := by
  by_cases hm : ∃ r ∈ getSnapRules coords GLOBAL_ALIGN_THRESHOLD, r.min ≤ c ∧ c ≤ r.max
  · obtain ⟨r, hr, h1, h2⟩ := hm
    have heq := applySnapRules_eq_target (by decide) hr h1 h2
    have hrange := rule_target_range r hr
    refine ⟨r, hr, h1, h2, heq, ?_⟩
    rw [abs_le]
    omega
  · push_neg at hm
    exact absurd (snapFold_no_match _ (fun r hr hand => by have := hm r hr hand.1; omega) c) h

/-- Witness for C2's amended theorem at the chained pool `[0,20,40,60]` and
the rewritten coordinate `0` (moved to `30`, within the rule width `64 - 2`). -/
theorem C2_snap_locality_bounded_witness :
    ∃ r ∈ getSnapRules [0, 20, 40, 60] GLOBAL_ALIGN_THRESHOLD,
      r.min ≤ (0 : ℤ) ∧ (0 : ℤ) ≤ r.max ∧
      applySnapRules (getSnapRules [0, 20, 40, 60] GLOBAL_ALIGN_THRESHOLD) 0 = r.target ∧
      |(0 : ℤ) - r.target| ≤ r.max - r.min - 2 :=
  C2_snap_locality_bounded_by_rule [0, 20, 40, 60] 0 (by with_unfolding_all decide)

/-! ## CornerLocker: `vectorize.py` (`connect_corners_vh_and_lock`)

Vectorize's 4-lists `[x1, y1, x2, y2]` are embedded as `Line` with index 0 as
`x1`, 1 as `y1`, 2 as `x2`, 3 as `y2`. Per the source, `vx, vy1, vy2` are
bound **once per vertical**, before its inner loop over the horizontals
(`vectorize.py` line 183), and are *not* refreshed when `v[1]`/`v[3]` are
rewritten, while `hx1, hx2, hy` are recomputed from the current horizontal at
every pair. The Python `locked_points` set is embedded as the list of
junction points in insertion order (the claims under study never depend on
its deduplication). -/

def CORNER_SNAP_DIST : ℤ := 45

/-- The vertical-endpoint write `v[1] = hy` / `v[3] = hy` guarded by
`abs(vy1 - hy) < abs(vy2 - hy)`, where `vy1`/`vy2` are the values bound once
per vertical (`vectorize.py` lines 195-196/202-203). -/
def snapVyAt (vy1 vy2 : ℤ) (v : Line) (hy : ℤ) : Line :=
  if |vy1 - hy| < |vy2 - hy| then { v with y1 := hy } else { v with y2 := hy }

/-- The horizontal-endpoint write `h[0] = vx` / `h[2] = vx` guarded by
`abs(hx1 - vx) < abs(hx2 - vx)`, where `hx1`/`hx2` are recomputed from the
current horizontal at each pair (`vectorize.py` lines 184, 197-198/207-208). -/
def snapHx (h : Line) (vx : ℤ) : Line :=
  if |min h.x1 h.x2 - vx| < |max h.x1 h.x2 - vx| then { h with x1 := vx }
  else { h with x2 := vx }

/-- One vertical/horizontal pair interaction of `connect_corners_vh_and_lock`
(the body of the nested loop, `vectorize.py` lines 184-212): detect an
L-corner or T-junction and rewrite the guarded endpoints; returns the updated
pair together with the locked junction point, if any.  `vx`, `vy1`, `vy2` are
the values bound once per vertical; `hx1`, `hx2`, `hy` come from the current
horizontal. -/
def cornerStep (vx vy1 vy2 : ℤ) (v h : Line) : Line × Line × Option (ℤ × ℤ) :=
  let hx1 := min h.x1 h.x2
  let hx2 := max h.x1 h.x2
  let hy := h.y1
  let vNearH := |vy1 - hy| < CORNER_SNAP_DIST ∨ |vy2 - hy| < CORNER_SNAP_DIST
  let hNearV := |hx1 - vx| < CORNER_SNAP_DIST ∨ |hx2 - vx| < CORNER_SNAP_DIST
  let vInH := hx1 - 10 ≤ vx ∧ vx ≤ hx2 + 10
  let hInV := vy1 - 10 ≤ hy ∧ hy ≤ vy2 + 10
  if vNearH ∧ hNearV then (snapVyAt vy1 vy2 v hy, snapHx h vx, some (vx, hy))
  else if vNearH ∧ vInH then (snapVyAt vy1 vy2 v hy, h, some (vx, hy))
  else if hNearV ∧ hInV then (v, snapHx h vx, some (vx, hy))
  else (v, h, none)

/-- The inner `for h in horzs` loop for one vertical, threading the mutated
vertical through the mutated horizontal list while keeping the once-bound
`vx`, `vy1`, `vy2` fixed. -/
def cornerInner (vx vy1 vy2 : ℤ) (v : Line) :
    List Line → Line × List Line × List (ℤ × ℤ)
  | [] => (v, [], [])
  | h :: hs =>
    let s := cornerStep vx vy1 vy2 v h
    let rest := cornerInner vx vy1 vy2 s.1 hs
    (rest.1, s.2.1 :: rest.2.1, s.2.2.toList ++ rest.2.2)

/-- `connect_corners_vh_and_lock`: for each vertical bind
`vx, vy1, vy2 = v[0], min(v[1], v[3]), max(v[1], v[3])` once, run the inner
loop over the (threaded) horizontal list, and collect the locked junction
points. -/
def connectCornersVhAndLock (verticals horizontals : List Line) :
    List Line × List Line × List (ℤ × ℤ) :=
  match verticals with
  | [] => ([], horizontals, [])
  | v :: vs =>
    let s := cornerInner v.x1 (min v.y1 v.y2) (max v.y1 v.y2) v horizontals
    let rest := connectCornersVhAndLock vs s.2.1
    (s.1 :: rest.1, rest.2.1, s.2.2 ++ rest.2.2)

/-- **C3, counterexample.** Two failures of "the nearer endpoint is
rewritten, never both, no degeneration".
(1) Reversed order: with the vertical listed as `(0,100)-(0,0)` and a
horizontal at `y = 0` crossing it, the code compares distances of the
*sorted* endpoints but writes the raw index `v[1]`: it rewrites the far
endpoint `y1 = 100` to `0`, collapsing the segment to the point `(0,0)`.
(2) Sorted order, second junction: for the vertical `(0,0)-(0,100)` with
horizontals at `y = 44` and then `y = 60`, the first resolution rewrites
`y1` to `44`; the second still compares against the stale bindings
`vy1 = 0, vy2 = 100`, so it rewrites `y2 = 100` (to `60`) even though the
current endpoint `44` is nearer to the junction (`|44-60| < |100-60|`). -/
theorem C3_corner_nearer_endpoint_counterexample :
    ((connectCornersVhAndLock [⟨0, 100, 0, 0⟩] [⟨-50, 0, 50, 0⟩]).1 = [⟨0, 0, 0, 0⟩] ∧
      (⟨0, 100, 0, 0⟩ : Line).y1 ≠ (⟨0, 100, 0, 0⟩ : Line).y2) ∧
    ((connectCornersVhAndLock [⟨0, 0, 0, 100⟩]
        [⟨-50, 44, 50, 44⟩, ⟨-50, 60, 50, 60⟩]).1 = [⟨0, 44, 0, 60⟩] ∧
      (cornerInner 0 0 100 ⟨0, 0, 0, 100⟩ [⟨-50, 44, 50, 44⟩]).1 = ⟨0, 44, 0, 100⟩ ∧
      (cornerStep 0 0 100 ⟨0, 44, 0, 100⟩ ⟨-50, 60, 50, 60⟩).1 = ⟨0, 44, 0, 60⟩ ∧
      |(44 : ℤ) - 60| < |(100 : ℤ) - 60|) := by
  refine ⟨⟨?_, ?_⟩, ?_, ?_, ?_, ?_⟩ <;> decide

theorem abs_lt_abs_iff_two_mul (a b c : ℤ) (hab : a < b) :
    |a - c| < |b - c| ↔ 2 * c < a + b := by
  constructor <;> intro h
  · rcases abs_cases (a - c) with ⟨h1, h2⟩ | ⟨h1, h2⟩ <;>
      rcases abs_cases (b - c) with ⟨h3, h4⟩ | ⟨h3, h4⟩ <;>
      rw [h1, h3] at h <;> omega
  · rcases abs_cases (a - c) with ⟨h1, h2⟩ | ⟨h1, h2⟩ <;>
      rcases abs_cases (b - c) with ⟨h3, h4⟩ | ⟨h3, h4⟩ <;>
      rw [h1, h3] <;> omega

theorem snapVyAt_x_unchanged (vy1 vy2 : ℤ) (v : Line) (hy : ℤ) :
    (snapVyAt vy1 vy2 v hy).x1 = v.x1 ∧ (snapVyAt vy1 vy2 v hy).x2 = v.x2 := by
  unfold snapVyAt
  split <;> exact ⟨rfl, rfl⟩

theorem snapHx_y_unchanged (h : Line) (vx : ℤ) :
    (snapHx h vx).y1 = h.y1 ∧ (snapHx h vx).y2 = h.y2 := by
  unfold snapHx
  split <;> exact ⟨rfl, rfl⟩

theorem snapVyAt_spec (vy1 vy2 : ℤ) (v : Line) (hy : ℤ) :
    ((snapVyAt vy1 vy2 v hy).y1 = hy ∧ (snapVyAt vy1 vy2 v hy).y2 = v.y2 ∧
      |vy1 - hy| < |vy2 - hy|) ∨
    ((snapVyAt vy1 vy2 v hy).y1 = v.y1 ∧ (snapVyAt vy1 vy2 v hy).y2 = hy ∧
      |vy2 - hy| ≤ |vy1 - hy|) := by
  unfold snapVyAt
  split
  · rename_i hcond
    exact Or.inl ⟨rfl, rfl, hcond⟩
  · rename_i hcond
    exact Or.inr ⟨rfl, rfl, le_of_not_lt hcond⟩

theorem snapHx_spec (h : Line) (vx : ℤ) (hh : h.x1 ≤ h.x2) :
    ((snapHx h vx).x1 = vx ∧ (snapHx h vx).x2 = h.x2 ∧ |h.x1 - vx| < |h.x2 - vx|) ∨
    ((snapHx h vx).x1 = h.x1 ∧ (snapHx h vx).x2 = vx ∧ |h.x2 - vx| ≤ |h.x1 - vx|) := by
  unfold snapHx
  rw [min_eq_left hh, max_eq_right hh]
  split
  · rename_i hcond
    exact Or.inl ⟨rfl, rfl, hcond⟩
  · rename_i hcond
    exact Or.inr ⟨rfl, rfl, le_of_not_lt hcond⟩

theorem snapVyAt_fresh_nondegenerate (v : Line) (hy : ℤ) (hne : v.y1 ≠ v.y2) :
    (snapVyAt v.y1 v.y2 v hy).y1 ≠ (snapVyAt v.y1 v.y2 v hy).y2 := by
  rcases snapVyAt_spec v.y1 v.y2 v hy with ⟨h1, h2, h3⟩ | ⟨h1, h2, h3⟩
  · rw [h1, h2]
    intro heq
    rw [heq, sub_self, abs_zero] at h3
    exact absurd h3 (not_lt.mpr (abs_nonneg _))
  · rw [h1, h2]
    intro heq
    rw [← heq, sub_self, abs_zero] at h3
    have h4 : |v.y2 - v.y1| = 0 := le_antisymm h3 (abs_nonneg _)
    rw [abs_eq_zero, sub_eq_zero] at h4
    exact hne h4.symm

theorem snapHx_nondegenerate (h : Line) (vx : ℤ) (hh : h.x1 ≤ h.x2)
    (hne : h.x1 ≠ h.x2) : (snapHx h vx).x1 ≠ (snapHx h vx).x2 := by
  rcases snapHx_spec h vx hh with ⟨h1, h2, h3⟩ | ⟨h1, h2, h3⟩
  · rw [h1, h2]
    intro heq
    rw [heq, sub_self, abs_zero] at h3
    exact absurd h3 (not_lt.mpr (abs_nonneg _))
  · rw [h1, h2]
    intro heq
    rw [← heq, sub_self, abs_zero] at h3
    have h4 : |h.x2 - h.x1| = 0 := le_antisymm h3 (abs_nonneg _)
    rw [abs_eq_zero, sub_eq_zero] at h4
    exact hne h4.symm

/-- Every y-value ever written into `v[1]` satisfies `2*y < vy1 + vy2`, and
every y-value ever written into `v[3]` satisfies `vy1 + vy2 ≤ 2*y`; together
with the initial endpoints this keeps the two slots on opposite sides of the
bound midpoint. -/
theorem snapVyAt_pres (vy1 vy2 : ℤ) (hlt : vy1 < vy2) (v : Line) (hy : ℤ)
    (h1 : v.y1 = vy1 ∨ 2 * v.y1 < vy1 + vy2)
    (h2 : v.y2 = vy2 ∨ vy1 + vy2 ≤ 2 * v.y2) :
    ((snapVyAt vy1 vy2 v hy).y1 = vy1 ∨ 2 * (snapVyAt vy1 vy2 v hy).y1 < vy1 + vy2) ∧
    ((snapVyAt vy1 vy2 v hy).y2 = vy2 ∨ vy1 + vy2 ≤ 2 * (snapVyAt vy1 vy2 v hy).y2) := by
  rcases snapVyAt_spec vy1 vy2 v hy with ⟨e1, e2, hc⟩ | ⟨e1, e2, hc⟩
  · rw [e1, e2]
    exact ⟨Or.inr ((abs_lt_abs_iff_two_mul vy1 vy2 hy hlt).mp hc), h2⟩
  · rw [e1, e2]
    refine ⟨h1, Or.inr ?_⟩
    have hnc : ¬(2 * hy < vy1 + vy2) := fun hcon =>
      absurd ((abs_lt_abs_iff_two_mul vy1 vy2 hy hlt).mpr hcon) (not_lt.mpr hc)
    omega

theorem lt_of_slot_inv (vy1 vy2 : ℤ) (hlt : vy1 < vy2) (v : Line)
    (h1 : v.y1 = vy1 ∨ 2 * v.y1 < vy1 + vy2)
    (h2 : v.y2 = vy2 ∨ vy1 + vy2 ≤ 2 * v.y2) : v.y1 < v.y2 := by
  rcases h1 with h1 | h1 <;> rcases h2 with h2 | h2 <;> omega

theorem snapHx_strict (h : Line) (vx : ℤ) (hs : h.x1 < h.x2) :
    (snapHx h vx).x1 < (snapHx h vx).x2 := by
  rcases snapHx_spec h vx (le_of_lt hs) with ⟨e1, e2, hc⟩ | ⟨e1, e2, hc⟩
  · rw [e1, e2]
    have := (abs_lt_abs_iff_two_mul h.x1 h.x2 vx hs).mp hc
    omega
  · rw [e1, e2]
    have hnc : ¬(2 * vx < h.x1 + h.x2) := fun hcon =>
      absurd ((abs_lt_abs_iff_two_mul h.x1 h.x2 vx hs).mpr hcon) (not_lt.mpr hc)
    omega

theorem cornerStep_cases (vx vy1 vy2 : ℤ) (v h : Line) :
    ((cornerStep vx vy1 vy2 v h).1 = v ∨
      (cornerStep vx vy1 vy2 v h).1 = snapVyAt vy1 vy2 v h.y1) ∧
    ((cornerStep vx vy1 vy2 v h).2.1 = h ∨
      (cornerStep vx vy1 vy2 v h).2.1 = snapHx h vx) := by
  unfold cornerStep
  dsimp only
  split
  · exact ⟨Or.inr rfl, Or.inr rfl⟩
  · split
    · exact ⟨Or.inr rfl, Or.inl rfl⟩
    · split
      · exact ⟨Or.inl rfl, Or.inr rfl⟩
      · exact ⟨Or.inl rfl, Or.inl rfl⟩

/-- Through one vertical's whole inner loop, its `y1` slot holds either the
original `vy1` or a written value below the bound midpoint, its `y2` slot the
original `vy2` or a written value at or above it; its x-coordinates are
untouched. -/
theorem cornerInner_vert_inv (vx vy1 vy2 : ℤ) (hlt : vy1 < vy2) :
    ∀ (hs : List Line) (v : Line),
      (v.y1 = vy1 ∨ 2 * v.y1 < vy1 + vy2) →
      (v.y2 = vy2 ∨ vy1 + vy2 ≤ 2 * v.y2) →
      ((cornerInner vx vy1 vy2 v hs).1.y1 = vy1 ∨
        2 * (cornerInner vx vy1 vy2 v hs).1.y1 < vy1 + vy2) ∧
      ((cornerInner vx vy1 vy2 v hs).1.y2 = vy2 ∨
        vy1 + vy2 ≤ 2 * (cornerInner vx vy1 vy2 v hs).1.y2) ∧
      (cornerInner vx vy1 vy2 v hs).1.x1 = v.x1 ∧
      (cornerInner vx vy1 vy2 v hs).1.x2 = v.x2 := by
  intro hs
  induction hs with
  | nil => intro v h1 h2; exact ⟨h1, h2, rfl, rfl⟩
  | cons h hs ih =>
    intro v h1 h2
    obtain ⟨hcv, -⟩ := cornerStep_cases vx vy1 vy2 v h
    have hstep1 : ((cornerStep vx vy1 vy2 v h).1.y1 = vy1 ∨
        2 * (cornerStep vx vy1 vy2 v h).1.y1 < vy1 + vy2) ∧
        ((cornerStep vx vy1 vy2 v h).1.y2 = vy2 ∨
          vy1 + vy2 ≤ 2 * (cornerStep vx vy1 vy2 v h).1.y2) := by
      rcases hcv with he | he
      · rw [he]; exact ⟨h1, h2⟩
      · rw [he]; exact snapVyAt_pres vy1 vy2 hlt v h.y1 h1 h2
    have hstepx : (cornerStep vx vy1 vy2 v h).1.x1 = v.x1 ∧
        (cornerStep vx vy1 vy2 v h).1.x2 = v.x2 := by
      rcases hcv with he | he
      · rw [he]; exact ⟨rfl, rfl⟩
      · rw [he]; exact snapVyAt_x_unchanged vy1 vy2 v h.y1
    have hres := ih (cornerStep vx vy1 vy2 v h).1 hstep1.1 hstep1.2
    exact ⟨hres.1, hres.2.1, hres.2.2.1.trans hstepx.1, hres.2.2.2.trans hstepx.2⟩

/-- Horizontals keep strictly ordered endpoints through one vertical's inner
loop: `hx1`/`hx2` are recomputed per pair, so every horizontal write targets
the endpoint nearer to the junction among the *current* endpoints. -/
theorem cornerInner_horz_strict (vx vy1 vy2 : ℤ) :
    ∀ (hs : List Line) (v : Line), (∀ h ∈ hs, h.x1 < h.x2) →
      ∀ h' ∈ (cornerInner vx vy1 vy2 v hs).2.1, h'.x1 < h'.x2 := by
  intro hs
  induction hs with
  | nil =>
    intro v _ h' hh'
    exact absurd hh' (List.not_mem_nil h')
  | cons h hs ih =>
    intro v hq h' hh'
    have hh2 : h' ∈ (cornerStep vx vy1 vy2 v h).2.1 ::
        (cornerInner vx vy1 vy2 (cornerStep vx vy1 vy2 v h).1 hs).2.1 := hh'
    rcases List.mem_cons.mp hh2 with rfl | hmem
    · obtain ⟨-, hch⟩ := cornerStep_cases vx vy1 vy2 v h
      rcases hch with he | he
      · rw [he]
        exact hq h (List.mem_cons_self h hs)
      · rw [he]
        exact snapHx_strict h vx (hq h (List.mem_cons_self h hs))
    · exact ih (cornerStep vx vy1 vy2 v h).1
        (fun x hx => hq x (List.mem_cons_of_mem h hx)) h' hmem

/-- **C3, amended.** (1) Per pair step with the vertical's bindings still
fresh (`vx = v.x1`, `vy1 = v.y1 ≤ v.y2 = vy2` — as at a vertical's first
junction) and a sorted horizontal: each resolution rewrites at most one
endpoint per line, the one nearer to the junction `(v.x1, h.y1)` (strictly
nearer, or the second slot on ties), never both, and a non-degenerate
segment stays non-degenerate.  At later junctions of the same vertical the
stale `vy1`/`vy2` can select the endpoint *farther* from the junction among
the current ones (`C3_corner_nearer_endpoint_counterexample`, part 2).
(2) Still, over the whole `connect_corners_vh_and_lock` run on sorted
non-degenerate input (`y1 < y2` for verticals, `x1 < x2` for horizontals),
no segment is ever degenerated: every written `y1` stays below the
vertical's bound midpoint and every written `y2` at or above it, and
horizontal writes always preserve `x1 < x2`. -/
theorem C3_corner_locker_amended :
    (∀ (v h : Line), v.y1 ≤ v.y2 → h.x1 ≤ h.x2 →
      ((cornerStep v.x1 v.y1 v.y2 v h).1.x1 = v.x1 ∧
        (cornerStep v.x1 v.y1 v.y2 v h).1.x2 = v.x2) ∧
      ((cornerStep v.x1 v.y1 v.y2 v h).1 = v ∨
        ((cornerStep v.x1 v.y1 v.y2 v h).1.y1 = h.y1 ∧
          (cornerStep v.x1 v.y1 v.y2 v h).1.y2 = v.y2 ∧
          |v.y1 - h.y1| < |v.y2 - h.y1|) ∨
        ((cornerStep v.x1 v.y1 v.y2 v h).1.y1 = v.y1 ∧
          (cornerStep v.x1 v.y1 v.y2 v h).1.y2 = h.y1 ∧
          |v.y2 - h.y1| ≤ |v.y1 - h.y1|)) ∧
      (v.y1 ≠ v.y2 →
        (cornerStep v.x1 v.y1 v.y2 v h).1.y1 ≠ (cornerStep v.x1 v.y1 v.y2 v h).1.y2) ∧
      ((cornerStep v.x1 v.y1 v.y2 v h).2.1.y1 = h.y1 ∧
        (cornerStep v.x1 v.y1 v.y2 v h).2.1.y2 = h.y2) ∧
      ((cornerStep v.x1 v.y1 v.y2 v h).2.1 = h ∨
        ((cornerStep v.x1 v.y1 v.y2 v h).2.1.x1 = v.x1 ∧
          (cornerStep v.x1 v.y1 v.y2 v h).2.1.x2 = h.x2 ∧
          |h.x1 - v.x1| < |h.x2 - v.x1|) ∨
        ((cornerStep v.x1 v.y1 v.y2 v h).2.1.x1 = h.x1 ∧
          (cornerStep v.x1 v.y1 v.y2 v h).2.1.x2 = v.x1 ∧
          |h.x2 - v.x1| ≤ |h.x1 - v.x1|)) ∧
      (h.x1 ≠ h.x2 →
        (cornerStep v.x1 v.y1 v.y2 v h).2.1.x1 ≠ (cornerStep v.x1 v.y1 v.y2 v h).2.1.x2)) ∧
    (∀ (verticals horizontals : List Line),
      (∀ v ∈ verticals, v.y1 < v.y2) → (∀ h ∈ horizontals, h.x1 < h.x2) →
      (∀ v' ∈ (connectCornersVhAndLock verticals horizontals).1, v'.y1 < v'.y2) ∧
      (∀ h' ∈ (connectCornersVhAndLock verticals horizontals).2.1, h'.x1 < h'.x2)) := by
  constructor
  · intro v h hv hh
    obtain ⟨hcv, hch⟩ := cornerStep_cases v.x1 v.y1 v.y2 v h
    refine ⟨?_, ?_, ?_, ?_, ?_, ?_⟩
    · rcases hcv with he | he <;> rw [he]
      · exact ⟨rfl, rfl⟩
      · exact snapVyAt_x_unchanged v.y1 v.y2 v h.y1
    · rcases hcv with he | he
      · exact Or.inl he
      · rw [he]
        rcases snapVyAt_spec v.y1 v.y2 v h.y1 with hs | hs
        · exact Or.inr (Or.inl hs)
        · exact Or.inr (Or.inr hs)
    · intro hne
      rcases hcv with he | he <;> rw [he]
      · exact hne
      · exact snapVyAt_fresh_nondegenerate v h.y1 hne
    · rcases hch with he | he <;> rw [he]
      · exact ⟨rfl, rfl⟩
      · exact snapHx_y_unchanged h v.x1
    · rcases hch with he | he
      · exact Or.inl he
      · rw [he]
        rcases snapHx_spec h v.x1 hh with hs | hs
        · exact Or.inr (Or.inl hs)
        · exact Or.inr (Or.inr hs)
    · intro hne
      rcases hch with he | he <;> rw [he]
      · exact hne
      · exact snapHx_nondegenerate h v.x1 hh hne
  · intro verticals
    induction verticals with
    | nil =>
      intro horizontals _ hh
      exact ⟨fun v' hv' => absurd hv' (List.not_mem_nil v'), fun h' hh' => hh h' hh'⟩
    | cons v vs ih =>
      intro horizontals hv hh
      have hvlt : v.y1 < v.y2 := hv v (List.mem_cons_self v vs)
      have hbind1 : min v.y1 v.y2 = v.y1 := min_eq_left (le_of_lt hvlt)
      have hbind2 : max v.y1 v.y2 = v.y2 := max_eq_right (le_of_lt hvlt)
      have hblt : min v.y1 v.y2 < max v.y1 v.y2 := by rw [hbind1, hbind2]; exact hvlt
      have hinv := cornerInner_vert_inv v.x1 (min v.y1 v.y2) (max v.y1 v.y2) hblt
        horizontals v (Or.inl hbind1.symm) (Or.inl hbind2.symm)
      have hheadlt :
          (cornerInner v.x1 (min v.y1 v.y2) (max v.y1 v.y2) v horizontals).1.y1 <
          (cornerInner v.x1 (min v.y1 v.y2) (max v.y1 v.y2) v horizontals).1.y2 :=
        lt_of_slot_inv (min v.y1 v.y2) (max v.y1 v.y2) hblt _ hinv.1 hinv.2.1
      have hhs' : ∀ h' ∈
          (cornerInner v.x1 (min v.y1 v.y2) (max v.y1 v.y2) v horizontals).2.1,
          h'.x1 < h'.x2 :=
        cornerInner_horz_strict v.x1 (min v.y1 v.y2) (max v.y1 v.y2) horizontals v hh
      have hrest := ih
        (cornerInner v.x1 (min v.y1 v.y2) (max v.y1 v.y2) v horizontals).2.1
        (fun x hx => hv x (List.mem_cons_of_mem v hx)) hhs'
      constructor
      · intro v' hv'
        have hv2 : v' ∈
            (cornerInner v.x1 (min v.y1 v.y2) (max v.y1 v.y2) v horizontals).1 ::
            (connectCornersVhAndLock vs
              (cornerInner v.x1 (min v.y1 v.y2) (max v.y1 v.y2) v horizontals).2.1).1 :=
          hv'
        rcases List.mem_cons.mp hv2 with rfl | hmem
        · exact hheadlt
        · exact hrest.1 v' hmem
      · intro h' hh'
        exact hrest.2 h' hh'

/-- Witness for C3's amended theorem.  Fresh binding: a sorted vertical
`(0,0)-(0,100)` and a horizontal at `y = 5` rewrite only the nearer endpoint
`y1 = 0` and stay non-degenerate.  Whole pass: the stale-binding scenario of
the counterexample (horizontals `y=44` then `y=60`) still leaves its
vertical non-degenerate, `(0,44)-(0,60)`. -/
theorem C3_corner_locker_amended_witness :
    ((cornerStep (0 : ℤ) 0 100 ⟨0, 0, 0, 100⟩ ⟨-50, 5, 50, 5⟩).1 = ⟨0, 5, 0, 100⟩ ∧
      (cornerStep (0 : ℤ) 0 100 ⟨0, 0, 0, 100⟩ ⟨-50, 5, 50, 5⟩).2.1 = ⟨-50, 5, 50, 5⟩) ∧
    (cornerStep (0 : ℤ) 0 100 ⟨0, 0, 0, 100⟩ ⟨-50, 5, 50, 5⟩).1.y1 ≠
      (cornerStep (0 : ℤ) 0 100 ⟨0, 0, 0, 100⟩ ⟨-50, 5, 50, 5⟩).1.y2 ∧
    (⟨0, 44, 0, 60⟩ : Line).y1 < (⟨0, 44, 0, 60⟩ : Line).y2 := by
  refine ⟨⟨by decide, by decide⟩, ?_, ?_⟩
  · exact (C3_corner_locker_amended.1 ⟨0, 0, 0, 100⟩ ⟨-50, 5, 50, 5⟩
      (by decide) (by decide)).2.2.1 (by decide)
  · exact (C3_corner_locker_amended.2 [⟨0, 0, 0, 100⟩]
      [⟨-50, 44, 50, 44⟩, ⟨-50, 60, 50, 60⟩] (by decide) (by decide)).1
      ⟨0, 44, 0, 60⟩ (by decide)

/-! ## EndpointExtender: `pipeline_extend_endpoints.py`

Coordinates are integers; the geometry (`line_intersection`, projections,
distances) is carried out exactly in `ℚ`. Every comparison the Python code
makes on a Euclidean distance `sqrt(d)` is modelled by the equivalent
comparison of the squared distance, and list entries sorted by distance are
ordered by squared distance, which induces the same order. Python's
`dict` iteration (insertion order) is reproduced by the list encodings. -/

def EPS : ℚ := 1 / 10000000000

/-- `line_intersection`: intersection of two infinite lines, `None` iff the
direction determinant has magnitude below `1e-10`. -/
def lineIntersection (x1 y1 x2 y2 x3 y3 x4 y4 : ℚ) : Option (ℚ × ℚ) :=
  let dx1 := x2 - x1
  let dy1 := y2 - y1
  let dx2 := x4 - x3
  let dy2 := y4 - y3
  let denom := dx1 * dy2 - dy1 * dx2
  if |denom| < EPS then none
  else
    let t := ((x3 - x1) * dy2 - (y3 - y1) * dx2) / denom
    some (x1 + t * dx1, y1 + t * dy1)

/-- Squared Euclidean distance (`distance_point_to_point` squared). -/
def distSq (p q : ℚ × ℚ) : ℚ := (p.1 - q.1) * (p.1 - q.1) + (p.2 - q.2) * (p.2 - q.2)

/-- Squared distance from a point to a line segment
(`distance_point_to_line_segment` squared): clamp the projection parameter
to `[0, 1]` and measure to the closest point. -/
def distPointToSegSq (p a b : ℚ × ℚ) : ℚ :=
  let dx := b.1 - a.1
  let dy := b.2 - a.2
  if dx = 0 ∧ dy = 0 then distSq p a
  else
    let t := max 0 (min 1 (((p.1 - a.1) * dx + (p.2 - a.2) * dy) / (dx * dx + dy * dy)))
    distSq p (a.1 + t * dx, a.2 + t * dy)

def pt1 (l : Line) : ℤ × ℤ := (l.x1, l.y1)

def pt2 (l : Line) : ℤ × ℤ := (l.x2, l.y2)

/-- All endpoint occurrences in order (`p1` then `p2` per line). -/
def occPoints (lines : List Line) : List (ℤ × ℤ) :=
  lines.flatMap fun l => [pt1 l, pt2 l]

/-- Number of occurrences of a vertex (`len(endpoint_usage[pt])`). -/
def cntP (ps : List (ℤ × ℤ)) (p : ℤ × ℤ) : ℕ := (ps.filter fun q => q = p).length

/-- The number of distinct free endpoints: vertices of degree exactly 1.
(A degree-1 vertex occurs exactly once, so filtering the occurrence list
already counts each such vertex once.) -/
def freeCount (lines : List Line) : ℕ :=
  ((occPoints lines).filter fun p => cntP (occPoints lines) p = 1).length

/-- A free-endpoint work item: the dict key `endpoint_pt` with its unique
`(line_idx, position)` use. -/
structure EndpointRef where
  pt : ℤ × ℤ
  idx : ℕ
  isStart : Bool
  deriving DecidableEq, Repr

/-- All endpoint occurrences with their `(line_idx, position)` tags. -/
def occRefs (lines : List Line) : List EndpointRef :=
  lines.enum.flatMap fun q => [⟨pt1 q.2, q.1, true⟩, ⟨pt2 q.2, q.1, false⟩]

/-- The free endpoints in `dict` insertion order: occurrences whose vertex has
degree exactly 1 (`free_endpoints` of step 1). -/
def freeRefs (lines : List Line) : List EndpointRef :=
  (occRefs lines).filter fun e => cntP (occPoints lines) e.pt = 1

/-- The "already on another line" check (lines 140-164): perpendicular
projection onto the other (infinite) line, distance within `tolerance`;
degenerate others are skipped. -/
def onLineCheck (lines : List Line) (idx : ℕ) (p : ℤ × ℤ) (tol : ℚ) : Bool :=
  lines.enum.any fun q =>
    if q.1 = idx then false
    else
      let dx : ℚ := (q.2.x2 : ℚ) - (q.2.x1 : ℚ)
      let dy : ℚ := (q.2.y2 : ℚ) - (q.2.y1 : ℚ)
      if dx = 0 ∧ dy = 0 then false
      else
        let t := (((p.1 : ℚ) - (q.2.x1 : ℚ)) * dx + ((p.2 : ℚ) - (q.2.y1 : ℚ)) * dy) /
          (dx * dx + dy * dy)
        decide (distSq ((p.1 : ℚ), (p.2 : ℚ))
          ((q.2.x1 : ℚ) + t * dx, (q.2.y1 : ℚ) + t * dy) ≤ tol * tol)

/-- `line_intersection` of the current line with another segment's line. -/
def lineInterOf (cur o : Line) : Option (ℚ × ℚ) :=
  lineIntersection cur.x1 cur.y1 cur.x2 cur.y2 o.x1 o.y1 o.x2 o.y2

/-- The direction determinant of a pair of lines (the `denom` of
`line_intersection`). -/
def denomOf (cur o : Line) : ℚ :=
  ((cur.x2 : ℚ) - cur.x1) * ((o.y2 : ℚ) - o.y1) -
    ((cur.y2 : ℚ) - cur.y1) * ((o.x2 : ℚ) - o.x1)

/-- Has the free endpoint already passed this intersection along its own line
(lines 187-214)? The axis with the larger direction component is used as the
parameter reference; a zero direction component on that axis skips the pair. -/
def crossedBehind (cur : Line) (p : ℤ × ℤ) (inter : ℚ × ℚ) : Bool :=
  let dxc : ℚ := (cur.x2 : ℚ) - (cur.x1 : ℚ)
  let dyc : ℚ := (cur.y2 : ℚ) - (cur.y1 : ℚ)
  if |dxc| > |dyc| then
    if dxc ≠ 0 then
      let te := ((p.1 : ℚ) - (cur.x1 : ℚ)) / dxc
      let ti := (inter.1 - (cur.x1 : ℚ)) / dxc
      decide ((te > 0 ∧ ti > 0 ∧ te ≥ ti) ∨ (te < 0 ∧ ti < 0 ∧ te ≤ ti))
    else false
  else
    if dyc ≠ 0 then
      let te := ((p.2 : ℚ) - (cur.y1 : ℚ)) / dyc
      let ti := (inter.2 - (cur.y1 : ℚ)) / dyc
      decide ((te > 0 ∧ ti > 0 ∧ te ≥ ti) ∨ (te < 0 ∧ ti < 0 ∧ te ≤ ti))
    else false

/-- The `already_intersects` candidate list (lines 172-214):
`(squared distance, intersection point, other index)` per qualifying pair,
in index order. -/
def crossedList (lines : List Line) (idx : ℕ) (cur : Line) (p : ℤ × ℤ) :
    List (ℚ × (ℚ × ℚ) × ℕ) :=
  lines.enum.filterMap fun q =>
    if q.1 = idx then none
    else
      match lineInterOf cur q.2 with
      | none => none
      | some i =>
        if crossedBehind cur p i then
          some (distSq ((p.1 : ℚ), (p.2 : ℚ)) i, i, q.1)
        else none

/-- The fresh `intersections` candidate list (lines 240-268): the infinite
intersection must lie within 2px of the other segment's actual span and
within `snap_distance` of the free endpoint. -/
def freshList (lines : List Line) (idx : ℕ) (cur : Line) (p : ℤ × ℤ) (snapD : ℚ) :
    List (ℚ × (ℚ × ℚ) × ℕ) :=
  lines.enum.filterMap fun q =>
    if q.1 = idx then none
    else
      match lineInterOf cur q.2 with
      | none => none
      | some i =>
        if distPointToSegSq i ((q.2.x1 : ℚ), (q.2.y1 : ℚ)) ((q.2.x2 : ℚ), (q.2.y2 : ℚ)) >
            2 * 2 then none
        else if distSq ((p.1 : ℚ), (p.2 : ℚ)) i ≤ snapD * snapD then
          some (distSq ((p.1 : ℚ), (p.2 : ℚ)) i, i, q.1)
        else none

/-- First element with minimal key: `sort` (stable, by distance) followed by
taking the head. -/
def argminFirst : List (ℚ × (ℚ × ℚ) × ℕ) → Option (ℚ × (ℚ × ℚ) × ℕ)
  | [] => none
  | x :: xs =>
    match argminFirst xs with
    | none => some x
    | some y => if y.1 < x.1 then some y else some x

/-- Overwrite one endpoint of one line (the `current_line['x1'] = ...`
writes). An out-of-range index leaves the list unchanged; `iterate` only ever
passes indices of existing lines. -/
def updateEndpoint (lines : List Line) (idx : ℕ) (isStart : Bool) (q : ℤ × ℤ) :
    List Line :=
  match lines.get? idx with
  | none => lines
  | some l =>
    lines.set idx
      (if isStart then { l with x1 := q.1, y1 := q.2 } else { l with x2 := q.1, y2 := q.2 })

/-- Round the snap target and rewrite the endpoint if it actually moves. -/
def snapTo (lines : List Line) (e : EndpointRef) (target : ℚ × ℚ) :
    List Line × Bool :=
  let newPt : ℤ × ℤ := (pyRound target.1, pyRound target.2)
  if newPt ≠ e.pt then (updateEndpoint lines e.idx e.isStart newPt, true)
  else (lines, false)

/-- Processing of one free endpoint (the body of the step-2 loop): skip if on
another line; else snap back to the closest already-crossed intersection;
else snap to the closest fresh qualifying intersection; else leave alone.
Returns the updated lines and whether a modification was counted. -/
def processOne (tol snapD : ℚ) (lines : List Line) (e : EndpointRef) :
    List Line × Bool :=
  match lines.get? e.idx with
  | none => (lines, false)
  | some cur =>
    if onLineCheck lines e.idx e.pt tol then (lines, false)
    else
      match argminFirst (crossedList lines e.idx cur e.pt) with
      | some c => snapTo lines e c.2.1
      | none =>
        match argminFirst (freshList lines e.idx cur e.pt snapD) with
        | some c => snapTo lines e c.2.1
        | none => (lines, false)

/-- One iteration of `extend_endpoints`: recompute the free endpoints, then
process each in dict order against the evolving line list, counting
modifications. -/
def iterateOnce (tol snapD : ℚ) (lines : List Line) : List Line × ℕ :=
  (freeRefs lines).foldl
    (fun st e =>
      let r := processOne tol snapD st.1 e
      (r.1, st.2 + if r.2 then 1 else 0))
    (lines, 0)

/-- The iteration loop: up to `max_iterations` passes, stopping early after a
pass with zero modifications. -/
def extendLoop (tol snapD : ℚ) : ℕ → List Line → List Line
  | 0, lines => lines
  | k + 1, lines =>
    let r := iterateOnce tol snapD lines
    if r.2 = 0 then r.1 else extendLoop tol snapD k r.1

/-- `extend_endpoints(lines_data, max_iterations=3, tolerance=2.0,
snap_distance=50.0)`. -/
def extendEndpoints (lines : List Line) (maxIterations : ℕ := 3) (tol : ℚ := 2)
    (snapD : ℚ := 50) : List Line :=
  extendLoop tol snapD maxIterations lines

/-- **C4, counterexample.** The spec's endpoint-extension scenario fails on
the code: with the wall `(0,50)-(100,50)`, the crossing wall `(50,0)-(50,100)`
and a segment whose free endpoint is `(48,50)` (here `(48,50)-(48,10)`),
the endpoint `(48,50)` lies within the default 2px tolerance of both walls'
infinite lines (distance 0 to `y=50`, distance 2 to `x=50`), so step 2 marks
it "already on a line" and `extend_endpoints` never moves it to `(50,50)`:
the third segment comes back unchanged. (The walls themselves get trimmed by
the snap-back branch, which is unrelated to the claim.) -/
theorem C4_endpoint_extension_scenario_counterexample :
    extendEndpoints [⟨0, 50, 100, 50⟩, ⟨50, 0, 50, 100⟩, ⟨48, 50, 48, 10⟩] 3 2 50 =
      [⟨48, 50, 50, 50⟩, ⟨50, 0, 50, 100⟩, ⟨48, 50, 48, 10⟩] := by
  with_unfolding_all decide

/-- **C4, amended.** A free endpoint strictly outside the 2px tolerance is
snapped as the scenario intends: the free endpoint `(44,50)` of
`(-10,50)-(44,50)`, with the crossing wall `(50,-10)-(50,110)`, is moved to
the intersection `(50,50)` (`snap_distance = 50`, tolerance 2); the crossing
wall's overshooting free end `(50,110)` is snapped back to the same junction
by the already-crossed branch. -/
theorem C4_endpoint_extension_amended :
    extendEndpoints [⟨-10, 50, 44, 50⟩, ⟨50, -10, 50, 110⟩] 3 2 50 =
      [⟨-10, 50, 50, 50⟩, ⟨50, -10, 50, 50⟩] := by
  with_unfolding_all decide

/-- **C9.** `line_intersection` returns `none` exactly when the direction
determinant has magnitude below `1e-10`, and the candidate loops of
`extend_endpoints` simply produce no entry for such a pair (both the
already-crossed list and the fresh-intersection list), so parallel pairs are
skipped and the iteration continues with the next candidate; the embedding is
a total function, so no exception is possible. -/
theorem C9_parallel_pairs_skipped :
    (∀ x1 y1 x2 y2 x3 y3 x4 y4 : ℚ,
      |(x2 - x1) * (y4 - y3) - (y2 - y1) * (x4 - x3)| < EPS →
        lineIntersection x1 y1 x2 y2 x3 y3 x4 y4 = none) ∧
    (∀ (lines : List Line) (idx : ℕ) (cur : Line) (p : ℤ × ℤ) (snapD : ℚ) c,
      c ∈ freshList lines idx cur p snapD →
        ∀ o, lines.get? c.2.2 = some o → ¬ |denomOf cur o| < EPS) ∧
    (∀ (lines : List Line) (idx : ℕ) (cur : Line) (p : ℤ × ℤ) c,
      c ∈ crossedList lines idx cur p →
        ∀ o, lines.get? c.2.2 = some o → ¬ |denomOf cur o| < EPS) := by
  have hnone : ∀ x1 y1 x2 y2 x3 y3 x4 y4 : ℚ,
      |(x2 - x1) * (y4 - y3) - (y2 - y1) * (x4 - x3)| < EPS →
        lineIntersection x1 y1 x2 y2 x3 y3 x4 y4 = none := by
    intro x1 y1 x2 y2 x3 y3 x4 y4 h
    unfold lineIntersection
    rw [if_pos h]
  have hsome : ∀ (cur o : Line) i, lineInterOf cur o = some i → ¬ |denomOf cur o| < EPS := by
    intro cur o i h hpar
    rw [lineInterOf, hnone _ _ _ _ _ _ _ _ hpar] at h
    exact Option.noConfusion h
  refine ⟨hnone, ?_, ?_⟩
  · intro lines idx cur p snapD c hc o ho
    rw [freshList, List.mem_filterMap] at hc
    obtain ⟨q, hq, hfq⟩ := hc
    by_cases hidx : q.1 = idx
    · rw [if_pos hidx] at hfq
      exact Option.noConfusion hfq
    · rw [if_neg hidx] at hfq
      cases hi : lineInterOf cur q.2 with
      | none => rw [hi] at hfq; exact Option.noConfusion hfq
      | some i =>
        rw [hi] at hfq
        dsimp only at hfq
        have hq2 : c.2.2 = q.1 := by
          by_cases h1 : distPointToSegSq i ((q.2.x1 : ℚ), (q.2.y1 : ℚ))
              ((q.2.x2 : ℚ), (q.2.y2 : ℚ)) > 2 * 2
          · rw [if_pos h1] at hfq
            exact Option.noConfusion hfq
          · rw [if_neg h1] at hfq
            by_cases h2 : distSq ((p.1 : ℚ), (p.2 : ℚ)) i ≤ snapD * snapD
            · rw [if_pos h2] at hfq
              exact (congrArg (fun z : ℚ × (ℚ × ℚ) × ℕ => z.2.2)
                (Option.some.inj hfq)).symm
            · rw [if_neg h2] at hfq
              exact Option.noConfusion hfq
        have hget : lines.get? q.1 = some q.2 := by
          rw [List.get?_eq_getElem?]
          exact List.mem_enum_iff_getElem?.mp hq
        rw [hq2, hget] at ho
        cases ho
        exact hsome cur q.2 i hi
  · intro lines idx cur p c hc o ho
    rw [crossedList, List.mem_filterMap] at hc
    obtain ⟨q, hq, hfq⟩ := hc
    by_cases hidx : q.1 = idx
    · rw [if_pos hidx] at hfq
      exact Option.noConfusion hfq
    · rw [if_neg hidx] at hfq
      cases hi : lineInterOf cur q.2 with
      | none => rw [hi] at hfq; exact Option.noConfusion hfq
      | some i =>
        rw [hi] at hfq
        dsimp only at hfq
        have hq2 : c.2.2 = q.1 := by
          by_cases h1 : crossedBehind cur p i = true
          · rw [if_pos h1] at hfq
            exact (congrArg (fun z : ℚ × (ℚ × ℚ) × ℕ => z.2.2)
              (Option.some.inj hfq)).symm
          · rw [if_neg h1] at hfq
            exact Option.noConfusion hfq
        have hget : lines.get? q.1 = some q.2 := by
          rw [List.get?_eq_getElem?]
          exact List.mem_enum_iff_getElem?.mp hq
        rw [hq2, hget] at ho
        cases ho
        exact hsome cur q.2 i hi

/-- Witness for C9 at a concrete parallel pair: two horizontal lines
(determinant 0) produce no intersection. -/
theorem C9_parallel_pairs_witness :
    lineIntersection 0 0 10 0 0 5 10 5 = none :=
  C9_parallel_pairs_skipped.1 0 0 10 0 0 5 10 5 (by with_unfolding_all decide)

theorem argminFirst_spec : ∀ l : List (ℚ × (ℚ × ℚ) × ℕ),
    (l = [] ∧ argminFirst l = none) ∨
      (∃ c, argminFirst l = some c ∧ c ∈ l ∧ ∀ c' ∈ l, c.1 ≤ c'.1) := by
  intro l
  induction l with
  | nil => exact Or.inl ⟨rfl, rfl⟩
  | cons x xs ih =>
    right
    rcases ih with ⟨hnil, hnone⟩ | ⟨y, hy, hymem, hymin⟩
    · subst hnil
      refine ⟨x, rfl, List.mem_cons_self x [], ?_⟩
      intro c' hc'
      rcases List.mem_cons.mp hc' with rfl | hmem
      · exact le_refl _
      · simp at hmem
    · by_cases hlt : y.1 < x.1
      · refine ⟨y, ?_, List.mem_cons_of_mem x hymem, ?_⟩
        · rw [argminFirst, hy]
          simp [hlt]
        · intro c' hc'
          rcases List.mem_cons.mp hc' with rfl | hmem
          · exact le_of_lt hlt
          · exact hymin c' hmem
      · refine ⟨x, ?_, List.mem_cons_self x xs, ?_⟩
        · rw [argminFirst, hy]
          simp [hlt]
        · intro c' hc'
          rcases List.mem_cons.mp hc' with rfl | hmem
          · exact le_refl _
          · exact le_trans (le_of_not_lt hlt) (hymin c' hmem)

theorem argminFirst_mem {l : List (ℚ × (ℚ × ℚ) × ℕ)} {c}
    (h : argminFirst l = some c) : c ∈ l := by
  rcases argminFirst_spec l with ⟨_, hnone⟩ | ⟨y, hy, hymem, _⟩
  · rw [hnone] at h
    exact Option.noConfusion h
  · rw [hy] at h
    cases h
    exact hymem

theorem argminFirst_min {l : List (ℚ × (ℚ × ℚ) × ℕ)} {c}
    (h : argminFirst l = some c) : ∀ c' ∈ l, c.1 ≤ c'.1 := by
  rcases argminFirst_spec l with ⟨_, hnone⟩ | ⟨y, hy, _, hymin⟩
  · rw [hnone] at h
    exact Option.noConfusion h
  · rw [hy] at h
    cases h
    exact hymin

/-- **C8.** Closest-wins: when a free endpoint is neither already on another
line nor past a crossed intersection, and the fresh qualifying-intersection
list is nonempty, `extend_endpoints` snaps the endpoint to the first
candidate of minimal distance: the chosen candidate is a qualifying
intersection, its (squared) distance is a lower bound for every qualifying
candidate, and the processing step rewrites the endpoint to exactly that
intersection. -/
theorem C8_closest_wins (tol snapD : ℚ) (lines : List Line) (e : EndpointRef)
    (cur : Line) (_hfree : e ∈ freeRefs lines)
    (hcur : lines.get? e.idx = some cur)
    (hOn : onLineCheck lines e.idx e.pt tol = false)
    (hCr : crossedList lines e.idx cur e.pt = [])
    {c} (hc : argminFirst (freshList lines e.idx cur e.pt snapD) = some c) :
    c ∈ freshList lines e.idx cur e.pt snapD ∧
    (∀ c' ∈ freshList lines e.idx cur e.pt snapD, c.1 ≤ c'.1) ∧
    processOne tol snapD lines e = snapTo lines e c.2.1 := by
  refine ⟨argminFirst_mem hc, argminFirst_min hc, ?_⟩
  simp only [processOne, hcur, hOn, hCr, argminFirst, hc, Bool.false_eq_true, if_false]

/-- Witness for C8: the free endpoint `(40,0)` of `(0,0)-(40,0)` with vertical
walls at `x = 50` (distance 10) and `x = 70` (distance 30): the step picks the
distance-10 candidate `(50,0)` (squared distances `100` vs `900`). -/
theorem C8_closest_wins_witness :
    ((100 : ℚ), ((50 : ℚ), (0 : ℚ)), 1) ∈
      freshList [⟨0, 0, 40, 0⟩, ⟨50, -100, 50, 100⟩, ⟨70, -100, 70, 100⟩] 0
        ⟨0, 0, 40, 0⟩ (40, 0) 50 ∧
    (∀ c' ∈ freshList [⟨0, 0, 40, 0⟩, ⟨50, -100, 50, 100⟩, ⟨70, -100, 70, 100⟩] 0
        ⟨0, 0, 40, 0⟩ (40, 0) 50, (100 : ℚ) ≤ c'.1) ∧
    processOne 2 50 [⟨0, 0, 40, 0⟩, ⟨50, -100, 50, 100⟩, ⟨70, -100, 70, 100⟩]
        ⟨(40, 0), 0, false⟩ =
      snapTo [⟨0, 0, 40, 0⟩, ⟨50, -100, 50, 100⟩, ⟨70, -100, 70, 100⟩]
        ⟨(40, 0), 0, false⟩ ((50 : ℚ), (0 : ℚ)) :=
  C8_closest_wins 2 50 _ ⟨(40, 0), 0, false⟩ ⟨0, 0, 40, 0⟩
    (by with_unfolding_all decide) (by with_unfolding_all decide)
    (by with_unfolding_all decide) (by with_unfolding_all decide)
    (by with_unfolding_all decide)

/-! ### C5: the free-endpoint count never increases

Abstract counting layer: occurrences are indexed slots; an iteration may
change only slots whose initial vertex had degree 1. -/

theorem length_filter_eq_card {α : Type} (l : List α) (p : α → Bool) :
    (l.filter p).length =
      (Finset.univ.filter fun i : Fin l.length => p (l.get i) = true).card := by
  induction l with
  | nil => simp
  | cons x xs ih =>
    have hcard :
        (Finset.univ.filter fun i : Fin (x :: xs).length => p ((x :: xs).get i) = true).card =
          (if p x = true then 1 else 0) +
            (Finset.univ.filter fun i : Fin xs.length => p (xs.get i) = true).card := by
      rw [Finset.card_filter, Finset.card_filter]
      exact Fin.sum_univ_succ
        (f := fun i : Fin (xs.length + 1) => if p ((x :: xs).get i) = true then 1 else 0)
    rw [hcard, List.filter_cons]
    split
    · rw [List.length_cons, ih]
      omega
    · rw [ih]
      omega

theorem cntP_eq_card (l : List (ℤ × ℤ)) (q : ℤ × ℤ) :
    cntP l q = (Finset.univ.filter fun i : Fin l.length => l.get i = q).card := by
  rw [cntP, length_filter_eq_card]
  simp only [decide_eq_true_eq]

/-- The number of degree-1 vertices of a list of occurrence points. -/
def freeCntPts (l : List (ℤ × ℤ)) : ℕ :=
  (l.filter fun p => cntP l p = 1).length

theorem freeCntPts_eq_card (l : List (ℤ × ℤ)) :
    freeCntPts l = (Finset.univ.filter fun i : Fin l.length => cntP l (l.get i) = 1).card := by
  rw [freeCntPts, length_filter_eq_card]
  simp only [decide_eq_true_eq]

/-- Abstract monotonicity: if every changed slot's original vertex had degree
exactly 1, the number of degree-1 vertices cannot increase. -/
theorem freeCntPts_mono (l0 l1 : List (ℤ × ℤ)) (hlen : l1.length = l0.length)
    (hmove : ∀ i : Fin l1.length,
      l1.get i ≠ l0.get (Fin.cast hlen i) → cntP l0 (l0.get (Fin.cast hlen i)) = 1) :
    freeCntPts l1 ≤ freeCntPts l0 := by
  rw [freeCntPts_eq_card, freeCntPts_eq_card]
  have hinj : Function.Injective (Fin.cast hlen) := Fin.cast_injective hlen
  refine Finset.card_le_card_of_injOn (Fin.cast hlen) ?_ (Function.Injective.injOn hinj)
  intro i hi
  simp only [Finset.mem_filter, Finset.mem_univ, true_and] at hi ⊢
  by_cases hne : l1.get i = l0.get (Fin.cast hlen i)
  · -- unmoved slot: every original occurrence of this vertex must have
    -- survived (else the vertex had degree 1 anyway), so its degree did not
    -- drop, and it did not rise above the new degree 1
    set q := l0.get (Fin.cast hlen i) with hq
    by_cases hex : ∃ j : Fin l0.length,
        l0.get j = q ∧ l1.get (Fin.cast hlen.symm j) ≠ q
    · obtain ⟨j, hj, hj'⟩ := hex
      have hj'' : l1.get (Fin.cast hlen.symm j) ≠
          l0.get (Fin.cast hlen (Fin.cast hlen.symm j)) := by
        have : Fin.cast hlen (Fin.cast hlen.symm j) = j := Fin.ext rfl
        rw [this, hj]
        exact hj'
      have h1 := hmove (Fin.cast hlen.symm j) hj''
      have : Fin.cast hlen (Fin.cast hlen.symm j) = j := Fin.ext rfl
      rw [this, hj] at h1
      exact h1
    · push_neg at hex
      have hle : cntP l0 q ≤ cntP l1 q := by
        rw [cntP_eq_card, cntP_eq_card]
        have hinj' : Function.Injective (Fin.cast hlen.symm) := Fin.cast_injective hlen.symm
        refine Finset.card_le_card_of_injOn (Fin.cast hlen.symm) ?_
          (Function.Injective.injOn hinj')
        intro j hj
        simp only [Finset.mem_filter, Finset.mem_univ, true_and] at hj ⊢
        exact hex j hj
      have hge : 1 ≤ cntP l0 q := by
        rw [cntP_eq_card]
        refine Finset.card_pos.mpr ⟨Fin.cast hlen i, ?_⟩
        simp [hq]
      have h1 : cntP l1 q = 1 := hne ▸ hi
      omega
  · exact hmove i hne

/-! ### C5: program side -/

theorem occPoints_length (ls : List Line) : (occPoints ls).length = 2 * ls.length := by
  induction ls with
  | nil => rfl
  | cons l ls ih =>
    show (pt1 l :: pt2 l :: occPoints ls).length = 2 * (ls.length + 1)
    rw [List.length_cons, List.length_cons, ih]
    omega

theorem occPoints_get (ls : List Line) :
    ∀ (k : ℕ) (hk : k < ls.length)
      (h1 : 2 * k < (occPoints ls).length) (h2 : 2 * k + 1 < (occPoints ls).length),
      (occPoints ls).get ⟨2 * k, h1⟩ = pt1 (ls.get ⟨k, hk⟩) ∧
        (occPoints ls).get ⟨2 * k + 1, h2⟩ = pt2 (ls.get ⟨k, hk⟩) := by
  induction ls with
  | nil => intro k hk; simp at hk
  | cons l ls ih =>
    intro k hk h1 h2
    cases k with
    | zero => exact ⟨rfl, rfl⟩
    | succ k' =>
      have hk'' : k' < ls.length := Nat.lt_of_succ_lt_succ hk
      have hlen := occPoints_length ls
      have h1' : 2 * k' < (occPoints ls).length := by
        rw [hlen]
        omega
      have h2' : 2 * k' + 1 < (occPoints ls).length := by
        rw [hlen]
        omega
      exact ih k' hk'' h1' h2'

theorem freeRefs_spec {lines : List Line} {e : EndpointRef} (he : e ∈ freeRefs lines) :
    cntP (occPoints lines) e.pt = 1 ∧
      ∃ h : e.idx < lines.length,
        (if e.isStart then pt1 (lines.get ⟨e.idx, h⟩) else pt2 (lines.get ⟨e.idx, h⟩)) =
          e.pt := by
  rw [freeRefs, List.mem_filter] at he
  obtain ⟨hocc, hcnt⟩ := he
  refine ⟨by simpa using hcnt, ?_⟩
  rw [occRefs, List.mem_flatMap] at hocc
  obtain ⟨q, hq, hmem⟩ := hocc
  have hget : lines.get? q.1 = some q.2 := by
    rw [List.get?_eq_getElem?]
    exact List.mem_enum_iff_getElem?.mp hq
  obtain ⟨hlt, hgeteq⟩ := List.get?_eq_some.mp hget
  simp only [List.mem_cons, List.not_mem_nil, or_false] at hmem
  have hg2 : lines[q.1] = q.2 := (List.get_eq_getElem lines ⟨q.1, hlt⟩).symm.trans hgeteq
  rcases hmem with rfl | rfl
  · exact ⟨hlt, by simp [hg2]⟩
  · exact ⟨hlt, by simp [hg2]⟩

theorem updateEndpoint_eq_none {lines : List Line} {idx : ℕ} (b : Bool) (q : ℤ × ℤ)
    (h : lines.get? idx = none) : updateEndpoint lines idx b q = lines := by
  unfold updateEndpoint
  rw [h]

theorem updateEndpoint_eq_set {lines : List Line} {idx : ℕ} {l : Line} (b : Bool) (q : ℤ × ℤ)
    (h : lines.get? idx = some l) :
    updateEndpoint lines idx b q =
      lines.set idx
        (if b then { l with x1 := q.1, y1 := q.2 } else { l with x2 := q.1, y2 := q.2 }) := by
  unfold updateEndpoint
  rw [h]

theorem updateEndpoint_length (lines : List Line) (idx : ℕ) (b : Bool) (q : ℤ × ℤ) :
    (updateEndpoint lines idx b q).length = lines.length := by
  cases h : lines.get? idx with
  | none => rw [updateEndpoint_eq_none b q h]
  | some l =>
    rw [updateEndpoint_eq_set b q h]
    exact List.length_set lines idx _

theorem updateEndpoint_get_ne (lines : List Line) (idx : ℕ) (b : Bool) (q : ℤ × ℤ)
    (k : ℕ) (hk : k < (updateEndpoint lines idx b q).length) (hk' : k < lines.length)
    (hne : k ≠ idx) :
    (updateEndpoint lines idx b q).get ⟨k, hk⟩ = lines.get ⟨k, hk'⟩ := by
  cases h : lines.get? idx with
  | none => exact List.get_of_eq (updateEndpoint_eq_none b q h) ⟨k, hk⟩
  | some l =>
    have h3 := List.get_of_eq (updateEndpoint_eq_set b q h) ⟨k, hk⟩
    rw [h3]
    exact List.get_set_ne (fun he => hne he.symm) _

theorem updateEndpoint_get_idx (lines : List Line) (idx : ℕ) (b : Bool) (q : ℤ × ℤ)
    (hk : idx < (updateEndpoint lines idx b q).length) (hk' : idx < lines.length) :
    (updateEndpoint lines idx b q).get ⟨idx, hk⟩ =
      (if b then { lines.get ⟨idx, hk'⟩ with x1 := q.1, y1 := q.2 }
       else { lines.get ⟨idx, hk'⟩ with x2 := q.1, y2 := q.2 }) := by
  have h : lines.get? idx = some (lines.get ⟨idx, hk'⟩) := List.get?_eq_get hk'
  have h3 := List.get_of_eq (updateEndpoint_eq_set b q h) ⟨idx, hk⟩
  rw [h3]
  exact List.get_set_eq _

/-- Invariant of one iteration: relative to the iteration's initial list,
only slots whose initial vertex had degree 1 may have changed. -/
def OnlyFreeMoved (init ls : List Line) : Prop :=
  ls.length = init.length ∧
    ∀ (k : ℕ) (hk : k < ls.length) (hk' : k < init.length),
      (pt1 (ls.get ⟨k, hk⟩) ≠ pt1 (init.get ⟨k, hk'⟩) →
        cntP (occPoints init) (pt1 (init.get ⟨k, hk'⟩)) = 1) ∧
      (pt2 (ls.get ⟨k, hk⟩) ≠ pt2 (init.get ⟨k, hk'⟩) →
        cntP (occPoints init) (pt2 (init.get ⟨k, hk'⟩)) = 1)

theorem onlyFreeMoved_refl (init : List Line) : OnlyFreeMoved init init :=
  ⟨rfl, fun _ _ _ => ⟨fun h => absurd rfl h, fun h => absurd rfl h⟩⟩

theorem updateEndpoint_preserves {init ls : List Line} {e : EndpointRef}
    (he : e ∈ freeRefs init) (hinv : OnlyFreeMoved init ls) (q : ℤ × ℤ) :
    OnlyFreeMoved init (updateEndpoint ls e.idx e.isStart q) := by
  obtain ⟨hlen, hslots⟩ := hinv
  obtain ⟨hcnt, hidx, hpt⟩ := freeRefs_spec he
  obtain ⟨ept, eidx, eb⟩ := e
  dsimp only at hpt hcnt ⊢
  refine ⟨by rw [updateEndpoint_length]; exact hlen, ?_⟩
  intro k hk hk'
  have hkls : k < ls.length := by
    rw [updateEndpoint_length] at hk
    exact hk
  by_cases hkidx : k = eidx
  · subst hkidx
    have hg := updateEndpoint_get_idx ls k eb q hk hkls
    have hkeq : init.get ⟨k, hidx⟩ = init.get ⟨k, hk'⟩ := rfl
    cases eb with
    | true =>
      rw [if_pos rfl] at hg
      rw [if_pos rfl] at hpt
      constructor
      · intro _
        rw [← hkeq, hpt]
        exact hcnt
      · intro hne2
        rw [hg] at hne2
        exact (hslots k hkls hk').2 hne2
    | false =>
      rw [if_neg (by simp)] at hg
      rw [if_neg (by simp)] at hpt
      constructor
      · intro hne2
        rw [hg] at hne2
        exact (hslots k hkls hk').1 hne2
      · intro _
        rw [← hkeq, hpt]
        exact hcnt
  · rw [updateEndpoint_get_ne ls eidx eb q k hk hkls hkidx]
    exact hslots k hkls hk'

theorem processOne_result (tol snapD : ℚ) (ls : List Line) (e : EndpointRef) :
    (processOne tol snapD ls e).1 = ls ∨
      ∃ q, (processOne tol snapD ls e).1 = updateEndpoint ls e.idx e.isStart q := by
  unfold processOne
  cases hget : ls.get? e.idx with
  | none => exact Or.inl rfl
  | some cur =>
    dsimp only
    by_cases hOn : onLineCheck ls e.idx e.pt tol
    · rw [if_pos hOn]
      exact Or.inl rfl
    · rw [if_neg hOn]
      cases hcr : argminFirst (crossedList ls e.idx cur e.pt) with
      | some c =>
        dsimp only [snapTo]
        split
        · exact Or.inr ⟨_, rfl⟩
        · exact Or.inl rfl
      | none =>
        cases hfr : argminFirst (freshList ls e.idx cur e.pt snapD) with
        | some c =>
          dsimp only [snapTo]
          split
          · exact Or.inr ⟨_, rfl⟩
          · exact Or.inl rfl
        | none => exact Or.inl rfl

theorem processOne_preserves (tol snapD : ℚ) {init ls : List Line} {e : EndpointRef}
    (he : e ∈ freeRefs init) (hinv : OnlyFreeMoved init ls) :
    OnlyFreeMoved init (processOne tol snapD ls e).1 := by
  rcases processOne_result tol snapD ls e with h | ⟨q, h⟩
  · rw [h]
    exact hinv
  · rw [h]
    exact updateEndpoint_preserves he hinv q

theorem foldl_processOne_preserves (tol snapD : ℚ) (init : List Line) :
    ∀ (es : List EndpointRef) (st : List Line × ℕ),
      (∀ e ∈ es, e ∈ freeRefs init) → OnlyFreeMoved init st.1 →
      OnlyFreeMoved init
        ((es.foldl
          (fun st e =>
            let r := processOne tol snapD st.1 e
            (r.1, st.2 + if r.2 then 1 else 0)) st)).1 := by
  intro es
  induction es with
  | nil => intro st _ hinv; exact hinv
  | cons e es ih =>
    intro st hes hinv
    rw [List.foldl_cons]
    exact ih _ (fun e' he' => hes e' (List.mem_cons_of_mem e he'))
      (processOne_preserves tol snapD (hes e (List.mem_cons_self e es)) hinv)

theorem iterateOnce_onlyFreeMoved (tol snapD : ℚ) (lines : List Line) :
    OnlyFreeMoved lines (iterateOnce tol snapD lines).1 :=
  foldl_processOne_preserves tol snapD lines (freeRefs lines) (lines, 0)
    (fun _ he => he) (onlyFreeMoved_refl lines)

theorem onlyFreeMoved_freeCount {init ls : List Line} (h : OnlyFreeMoved init ls) :
    freeCount ls ≤ freeCount init := by
  have hlen2 : (occPoints ls).length = (occPoints init).length := by
    rw [occPoints_length, occPoints_length, h.1]
  show freeCntPts (occPoints ls) ≤ freeCntPts (occPoints init)
  refine freeCntPts_mono (occPoints init) (occPoints ls) hlen2 ?_
  intro i hne
  have hilt : (i : ℕ) < 2 * ls.length := lt_of_lt_of_eq i.isLt (occPoints_length ls)
  obtain ⟨k, r, hr, hik, hkn⟩ :
      ∃ k r, r < 2 ∧ (i : ℕ) = 2 * k + r ∧ k < ls.length :=
    ⟨(i : ℕ) / 2, (i : ℕ) % 2, by omega, by omega, by omega⟩
  have hkn' : k < init.length := by
    rw [← h.1]
    exact hkn
  have hgl := occPoints_get ls k hkn
  have hgi := occPoints_get init k hkn'
  have hbl0 : 2 * k < (occPoints ls).length := by
    rw [occPoints_length]
    omega
  have hbl1 : 2 * k + 1 < (occPoints ls).length := by
    rw [occPoints_length]
    omega
  have hbi0 : 2 * k < (occPoints init).length := by
    rw [occPoints_length]
    omega
  have hbi1 : 2 * k + 1 < (occPoints init).length := by
    rw [occPoints_length]
    omega
  rcases (by omega : r = 0 ∨ r = 1) with rfl | rfl
  · have hi0 : i = ⟨2 * k, hbl0⟩ := Fin.ext (show (i : ℕ) = 2 * k by omega)
    have hc0 : Fin.cast hlen2 i = ⟨2 * k, hbi0⟩ :=
      Fin.ext (show (i : ℕ) = 2 * k by omega)
    rw [hc0] at hne ⊢
    rw [hi0] at hne
    rw [(hgl hbl0 hbl1).1, (hgi hbi0 hbi1).1] at hne
    rw [(hgi hbi0 hbi1).1]
    exact ((h.2 k hkn hkn').1 hne)
  · have hi0 : i = ⟨2 * k + 1, hbl1⟩ := Fin.ext (show (i : ℕ) = 2 * k + 1 by omega)
    have hc0 : Fin.cast hlen2 i = ⟨2 * k + 1, hbi1⟩ :=
      Fin.ext (show (i : ℕ) = 2 * k + 1 by omega)
    rw [hc0] at hne ⊢
    rw [hi0] at hne
    rw [(hgl hbl0 hbl1).2, (hgi hbi0 hbi1).2] at hne
    rw [(hgi hbi0 hbi1).2]
    exact ((h.2 k hkn hkn').2 hne)

/-- **C5.** One iteration of `extend_endpoints` never increases the number of
distinct free (degree-1) endpoints, and consequently neither does the full
`extend_endpoints` run for any iteration budget: every rewrite performed by
an iteration moves an occurrence whose initial vertex had degree exactly 1,
and such moves cannot create more degree-1 vertices than they consume. -/
theorem C5_free_endpoint_count_monotone :
    (∀ (tol snapD : ℚ) (lines : List Line),
      freeCount (iterateOnce tol snapD lines).1 ≤ freeCount lines) ∧
    (∀ (lines : List Line) (k : ℕ) (tol snapD : ℚ),
      freeCount (extendEndpoints lines k tol snapD) ≤ freeCount lines) := by
  have h1 : ∀ (tol snapD : ℚ) (lines : List Line),
      freeCount (iterateOnce tol snapD lines).1 ≤ freeCount lines :=
    fun tol snapD lines => onlyFreeMoved_freeCount (iterateOnce_onlyFreeMoved tol snapD lines)
  refine ⟨h1, ?_⟩
  intro lines k
  induction k generalizing lines with
  | zero => intro tol snapD; exact le_refl _
  | succ k ih =>
    intro tol snapD
    show freeCount (extendLoop tol snapD (k + 1) lines) ≤ freeCount lines
    rw [extendLoop]
    split
    · exact h1 tol snapD lines
    · exact le_trans (ih (iterateOnce tol snapD lines).1 tol snapD) (h1 tol snapD lines)

/-! ## CrossFloorMatcher: `pipeline_match.py` (`match_coordinates`)

Segments are the well-formed dicts with all four coordinate keys (the only
shape the pipeline produces); the `"x,y"` string keys of
`extract_unique_points` are in bijection with the coordinate pairs. -/

def dedupFirst {α : Type} [DecidableEq α] : List α → List α
  | [] => []
  | x :: xs => x :: dedupFirst (xs.filter fun y => y ≠ x)
termination_by l => l.length
decreasing_by
  simp only [List.length_cons]
  exact Nat.lt_succ_of_le (List.length_filter_le _ _)

/-- `extract_unique_points`: unique endpoints in insertion order. -/
def extractUniquePoints (segs : List Line) : List (ℤ × ℤ) :=
  dedupFirst (segs.flatMap fun s => [pt1 s, pt2 s])

/-- The keys of `x_groups`: distinct x coordinates in insertion order. -/
def xKeys (pts : List (ℤ × ℤ)) : List ℤ := dedupFirst (pts.map Prod.fst)

/-- The keys of `y_groups`. -/
def yKeys (pts : List (ℤ × ℤ)) : List ℤ := dedupFirst (pts.map Prod.snd)

/-- The per-group axis scan: start the best distance at `threshold`, replace
on strictly smaller distance (first-found wins ties). Returns the chosen
reference value, if any got strictly below the threshold. -/
def bestSnap (refVals : List ℤ) (v : ℤ) (threshold : ℚ) : Option ℤ :=
  (refVals.foldl
    (fun st r => if ((|r - v| : ℤ) : ℚ) < st.1 then (((|r - v| : ℤ) : ℚ), some r) else st)
    (threshold, none)).2

/-- `x_snap_mapping`: one entry per x-group with a reference hit. -/
def xSnapMapping (refPts tgtPts : List (ℤ × ℤ)) (threshold : ℚ) : List (ℤ × ℤ) :=
  (xKeys tgtPts).filterMap fun v =>
    (bestSnap (refPts.map Prod.fst) v threshold).map fun r => (v, r)

/-- `y_snap_mapping`. -/
def ySnapMapping (refPts tgtPts : List (ℤ × ℤ)) (threshold : ℚ) : List (ℤ × ℤ) :=
  (yKeys tgtPts).filterMap fun v =>
    (bestSnap (refPts.map Prod.snd) v threshold).map fun r => (v, r)

/-- `mapping.get(old, old)`. -/
def lookupOr (m : List (ℤ × ℤ)) (v : ℤ) : ℤ :=
  match m.find? fun p => p.1 = v with
  | some p => p.2
  | none => v

structure MatchStats where
  total_reference_points : ℕ
  total_target_points : ℕ
  vertical_lines_snapped : ℕ
  horizontal_lines_snapped : ℕ
  total_lines : ℕ
  snap_percentage : ℚ
  deriving DecidableEq, Repr

/-- `match_coordinates(reference_segments, target_segments, threshold=50.0)`:
group target coordinates by axis, snap each group to the closest reference
coordinate strictly within the threshold, apply both axis mappings to every
segment, and report the aggregate statistics. -/
def matchCoordinates (refSegs tgtSegs : List Line) (threshold : ℚ) :
    List Line × MatchStats :=
  let refPts := extractUniquePoints refSegs
  let tgtPts := extractUniquePoints tgtSegs
  let xm := xSnapMapping refPts tgtPts threshold
  let ym := ySnapMapping refPts tgtPts threshold
  let totalLines := (xKeys tgtPts).length + (yKeys tgtPts).length
  (tgtSegs.map fun s =>
    ⟨lookupOr xm s.x1, lookupOr ym s.y1, lookupOr xm s.x2, lookupOr ym s.y2⟩,
   ⟨refPts.length, tgtPts.length, xm.length, ym.length, totalLines,
    if totalLines = 0 then 0 else ((xm.length : ℚ) + (ym.length : ℚ)) / (totalLines : ℚ) * 100⟩)

theorem bestSnap_eq_none {refVals : List ℤ} {v : ℤ} {threshold : ℚ}
    (h : ∀ r ∈ refVals, ¬ ((|r - v| : ℤ) : ℚ) < threshold) :
    bestSnap refVals v threshold = none := by
  unfold bestSnap
  suffices hs : refVals.foldl
      (fun st r => if ((|r - v| : ℤ) : ℚ) < st.1 then (((|r - v| : ℤ) : ℚ), some r) else st)
      (threshold, none) = (threshold, none) by
    rw [hs]
  induction refVals with
  | nil => rfl
  | cons r rs ih =>
    rw [List.foldl_cons, if_neg (h r (List.mem_cons_self r rs))]
    exact ih fun r' hr' => h r' (List.mem_cons_of_mem r hr')

theorem lookupOr_x_of_far {refPts tgtPts : List (ℤ × ℤ)} {th : ℚ} {v : ℤ}
    (h : ∀ rp ∈ refPts, ¬ ((|rp.1 - v| : ℤ) : ℚ) < th) :
    lookupOr (xSnapMapping refPts tgtPts th) v = v := by
  unfold lookupOr
  have hfind : (xSnapMapping refPts tgtPts th).find? (fun p => p.1 = v) = none := by
    rw [List.find?_eq_none]
    intro p hp
    rw [xSnapMapping, List.mem_filterMap] at hp
    obtain ⟨v', _, hmap⟩ := hp
    cases hb : bestSnap (refPts.map Prod.fst) v' th with
    | none =>
      rw [hb] at hmap
      exact Option.noConfusion hmap
    | some r =>
      rw [hb] at hmap
      cases hmap
      simp only [decide_eq_true_eq]
      intro hv
      rw [hv] at hb
      have : bestSnap (refPts.map Prod.fst) v th = none := by
        refine bestSnap_eq_none ?_
        intro r' hr'
        rw [List.mem_map] at hr'
        obtain ⟨rp, hrp, rfl⟩ := hr'
        exact h rp hrp
      rw [this] at hb
      exact Option.noConfusion hb
  rw [hfind]

theorem lookupOr_y_of_far {refPts tgtPts : List (ℤ × ℤ)} {th : ℚ} {v : ℤ}
    (h : ∀ rp ∈ refPts, ¬ ((|rp.2 - v| : ℤ) : ℚ) < th) :
    lookupOr (ySnapMapping refPts tgtPts th) v = v := by
  unfold lookupOr
  have hfind : (ySnapMapping refPts tgtPts th).find? (fun p => p.1 = v) = none := by
    rw [List.find?_eq_none]
    intro p hp
    rw [ySnapMapping, List.mem_filterMap] at hp
    obtain ⟨v', _, hmap⟩ := hp
    cases hb : bestSnap (refPts.map Prod.snd) v' th with
    | none =>
      rw [hb] at hmap
      exact Option.noConfusion hmap
    | some r =>
      rw [hb] at hmap
      cases hmap
      simp only [decide_eq_true_eq]
      intro hv
      rw [hv] at hb
      have : bestSnap (refPts.map Prod.snd) v th = none := by
        refine bestSnap_eq_none ?_
        intro r' hr'
        rw [List.mem_map] at hr'
        obtain ⟨rp, hrp, rfl⟩ := hr'
        exact h rp hrp
      rw [this] at hb
      exact Option.noConfusion hb
  rw [hfind]

/-- **C7.** Cross-floor matching: in the concrete scenario (reference wall
with endpoints `(500,500)` and `(500,600)`, target groups at `x = 508` and
`x = 700`, threshold 50) every target endpoint at `x = 508` is remapped to
`x = 500` while the group at `x = 700` (axis distance 200) stays at `700`;
and in general, an axis group with no reference coordinate strictly within
the threshold is left unmapped, so all its coordinates appear unchanged in
the output. -/
theorem C7_cross_floor_matching :
    (matchCoordinates [⟨500, 500, 500, 600⟩]
        [⟨508, 100, 508, 200⟩, ⟨700, 100, 700, 200⟩] 50 =
      ([⟨500, 100, 500, 200⟩, ⟨700, 100, 700, 200⟩],
        ⟨2, 4, 1, 0, 4, 25⟩)) ∧
    (∀ (refSegs tgtSegs : List Line) (th : ℚ) (v : ℤ),
      (∀ rp ∈ extractUniquePoints refSegs, ¬ ((|rp.1 - v| : ℤ) : ℚ) < th) →
      ∀ p ∈ tgtSegs.zip (matchCoordinates refSegs tgtSegs th).1,
        (p.1.x1 = v → p.2.x1 = v) ∧ (p.1.x2 = v → p.2.x2 = v)) ∧
    (∀ (refSegs tgtSegs : List Line) (th : ℚ) (w : ℤ),
      (∀ rp ∈ extractUniquePoints refSegs, ¬ ((|rp.2 - w| : ℤ) : ℚ) < th) →
      ∀ p ∈ tgtSegs.zip (matchCoordinates refSegs tgtSegs th).1,
        (p.1.y1 = w → p.2.y1 = w) ∧ (p.1.y2 = w → p.2.y2 = w)) := by
  refine ⟨by with_unfolding_all decide, ?_, ?_⟩
  · intro refSegs tgtSegs th v h p hp
    have hp0 : p ∈ tgtSegs.zip (tgtSegs.map fun s =>
        (⟨lookupOr (xSnapMapping (extractUniquePoints refSegs)
            (extractUniquePoints tgtSegs) th) s.x1,
          lookupOr (ySnapMapping (extractUniquePoints refSegs)
            (extractUniquePoints tgtSegs) th) s.y1,
          lookupOr (xSnapMapping (extractUniquePoints refSegs)
            (extractUniquePoints tgtSegs) th) s.x2,
          lookupOr (ySnapMapping (extractUniquePoints refSegs)
            (extractUniquePoints tgtSegs) th) s.y2⟩ : Line)) := hp
    have hzip := List.zip_map' (fun s : Line => s)
      (fun s : Line =>
        (⟨lookupOr (xSnapMapping (extractUniquePoints refSegs)
            (extractUniquePoints tgtSegs) th) s.x1,
          lookupOr (ySnapMapping (extractUniquePoints refSegs)
            (extractUniquePoints tgtSegs) th) s.y1,
          lookupOr (xSnapMapping (extractUniquePoints refSegs)
            (extractUniquePoints tgtSegs) th) s.x2,
          lookupOr (ySnapMapping (extractUniquePoints refSegs)
            (extractUniquePoints tgtSegs) th) s.y2⟩ : Line)) tgtSegs
    rw [List.map_id'] at hzip
    rw [hzip, List.mem_map] at hp0
    replace hp := hp0
    obtain ⟨s, _, rfl⟩ := hp
    constructor
    · intro hv
      show lookupOr _ s.x1 = v
      rw [hv]
      exact lookupOr_x_of_far h
    · intro hv
      show lookupOr _ s.x2 = v
      rw [hv]
      exact lookupOr_x_of_far h
  · intro refSegs tgtSegs th w h p hp
    have hp0 : p ∈ tgtSegs.zip (tgtSegs.map fun s =>
        (⟨lookupOr (xSnapMapping (extractUniquePoints refSegs)
            (extractUniquePoints tgtSegs) th) s.x1,
          lookupOr (ySnapMapping (extractUniquePoints refSegs)
            (extractUniquePoints tgtSegs) th) s.y1,
          lookupOr (xSnapMapping (extractUniquePoints refSegs)
            (extractUniquePoints tgtSegs) th) s.x2,
          lookupOr (ySnapMapping (extractUniquePoints refSegs)
            (extractUniquePoints tgtSegs) th) s.y2⟩ : Line)) := hp
    have hzip := List.zip_map' (fun s : Line => s)
      (fun s : Line =>
        (⟨lookupOr (xSnapMapping (extractUniquePoints refSegs)
            (extractUniquePoints tgtSegs) th) s.x1,
          lookupOr (ySnapMapping (extractUniquePoints refSegs)
            (extractUniquePoints tgtSegs) th) s.y1,
          lookupOr (xSnapMapping (extractUniquePoints refSegs)
            (extractUniquePoints tgtSegs) th) s.x2,
          lookupOr (ySnapMapping (extractUniquePoints refSegs)
            (extractUniquePoints tgtSegs) th) s.y2⟩ : Line)) tgtSegs
    rw [List.map_id'] at hzip
    rw [hzip, List.mem_map] at hp0
    replace hp := hp0
    obtain ⟨s, _, rfl⟩ := hp
    constructor
    · intro hv
      show lookupOr _ s.y1 = w
      rw [hv]
      exact lookupOr_y_of_far h
    · intro hv
      show lookupOr _ s.y2 = w
      rw [hv]
      exact lookupOr_y_of_far h

/-- Witness for C7's general part at the scenario's unmatched group
`x = 700`: both endpoints of the second target wall keep `x = 700`. -/
theorem C7_cross_floor_matching_witness :
    ∀ p ∈ [(⟨508, 100, 508, 200⟩ : Line), ⟨700, 100, 700, 200⟩].zip
        (matchCoordinates [⟨500, 500, 500, 600⟩]
          [⟨508, 100, 508, 200⟩, ⟨700, 100, 700, 200⟩] 50).1,
      (p.1.x1 = 700 → p.2.x1 = 700) ∧ (p.1.x2 = 700 → p.2.x2 = 700) :=
  C7_cross_floor_matching.2.1 [⟨500, 500, 500, 600⟩]
    [⟨508, 100, 508, 200⟩, ⟨700, 100, 700, 200⟩] 50 700
    (by with_unfolding_all decide)

/-- **C10.** An empty target list is handled without division by zero: the
stats report `total_lines = 0` and `snap_percentage = 0` (the guarded branch
of the percentage), and the returned target list is unchanged (empty). -/
theorem C10_empty_target_stats (refSegs : List Line) (threshold : ℚ) :
    matchCoordinates refSegs [] threshold =
      ([], ⟨(extractUniquePoints refSegs).length, 0, 0, 0, 0, 0⟩) := by
  with_unfolding_all rfl


/-! ### PolygonGrouper: `group_stair_polygons.py` -/

/-- The `type` field of a segment: `"wall"` or `"stair"`. -/
inductive SegType where
  | wall
  | stair
  deriving DecidableEq, Repr

/-- A segment as read by `group_stair_polygons`: integer endpoint coordinates
plus the `type` field. -/
structure GSeg where
  x1 : ℤ
  y1 : ℤ
  x2 : ℤ
  y2 : ℤ
  type : SegType
  deriving DecidableEq, Repr

/-- `start = (seg['x1'], seg['y1'])`. -/
def gpt1 (s : GSeg) : ℤ × ℤ := (s.x1, s.y1)

/-- `end = (seg['x2'], seg['y2'])`. -/
def gpt2 (s : GSeg) : ℤ × ℤ := (s.x2, s.y2)

/-- `stair_indices`: the indices of the stair segments, in ascending order. -/
def stairIndices (segs : List GSeg) : List ℕ :=
  (segs.enum.filter fun q => q.2.type = SegType.stair).map Prod.fst

/-- The entry list `vertex_to_segments[v]`: one entry per occurrence of `v` as
the start or end point of a stair segment, in the order the code appends them
(ascending segment index, the start entry before the end entry). -/
def vertexUses (segs : List GSeg) (v : ℤ × ℤ) : List ℕ :=
  segs.enum.flatMap fun q =>
    if q.2.type = SegType.stair then
      (if gpt1 q.2 = v then [q.1] else []) ++ (if gpt2 q.2 = v then [q.1] else [])
    else []

/-- Whether index `i` denotes a stair segment (`i in stair_segments`). -/
def isStairAt (segs : List GSeg) (i : ℕ) : Bool :=
  match segs.get? i with
  | some s => s.type = SegType.stair
  | none => false

theorem countP_isNone_set_lt (pid : ℕ) :
    ∀ (asn : List (Option ℕ)) (i : ℕ), i < asn.length →
      (asn.getD i none).isSome = false →
      (asn.set i (some pid)).countP (fun o => o.isNone) <
        asn.countP (fun o => o.isNone) := by
  intro asn
  induction asn with
  | nil => intro i hi; simp at hi
  | cons o os ih =>
    intro i hi h
    cases i with
    | zero =>
      simp only [List.getD_cons_zero] at h
      cases o with
      | some _ => simp at h
      | none => simp [List.set, List.countP_cons]
    | succ i' =>
      simp only [List.getD_cons_succ] at h
      have := ih i' (by simpa using hi) h
      simp only [List.set, List.countP_cons]
      omega

/-- The body of the `while queue:` BFS loop, made structurally recursive on an
explicit fuel argument (one unit per loop iteration).  Pop the front of the
queue; if it is already assigned, skip it; otherwise assign it the current
polygon id and enqueue the not-yet-assigned entries of the two vertex lists of
the popped segment.  The `i < asn.length` test is unreachable whenever every
queue entry is a valid segment index (as in every call the outer loop makes);
like the fuel cutoff it only serves totality, and `bfs` below always supplies
more fuel than the loop can consume. -/
def bfsFuel (segs : List GSeg) (pid : ℕ) : ℕ → List (Option ℕ) → List ℕ → List (Option ℕ)
  | 0, asn, _ => asn
  | _ + 1, asn, [] => asn
  | fuel + 1, asn, i :: qs =>
    if (asn.getD i none).isSome then bfsFuel segs pid fuel asn qs
    else if i < asn.length then
      let asn' := asn.set i (some pid)
      let s := segs.getD i ⟨0, 0, 0, 0, SegType.wall⟩
      let nb1 := (vertexUses segs (gpt1 s)).filter fun j => ¬(asn'.getD j none).isSome
      let nb2 := (vertexUses segs (gpt2 s)).filter fun j => ¬(asn'.getD j none).isSome
      bfsFuel segs pid fuel asn' (qs ++ nb1 ++ nb2)
    else bfsFuel segs pid fuel asn qs

/-- Fuel that provably exceeds the number of iterations of one BFS round:
every skipped pop shortens the queue, and every assignment removes a `none`
slot while enqueuing at most `4 * segs.length` new entries. -/
def bfsFuelBound (segs : List GSeg) (asn : List (Option ℕ)) (queue : List ℕ) : ℕ :=
  asn.countP (fun o => o.isNone) * (4 * segs.length + 1) + queue.length + 1

/-- One BFS round of `group_stair_polygons`. -/
def bfs (segs : List GSeg) (pid : ℕ) (asn : List (Option ℕ)) (queue : List ℕ) :
    List (Option ℕ) :=
  bfsFuel segs pid (bfsFuelBound segs asn queue) asn queue

/-- The filtered neighbour list pushed for vertex `v` when index `i` has just
been assigned id `pid`: the entries of `vertex_to_segments[v]` that are still
unassigned afterwards. -/
def nbList (segs : List GSeg) (pid : ℕ) (asn : List (Option ℕ)) (i : ℕ) (v : ℤ × ℤ) :
    List ℕ :=
  (vertexUses segs v).filter fun j => ¬((asn.set i (some pid)).getD j none).isSome

/-- The outer `for start_idx in stair_indices:` loop: every not-yet-assigned
stair index seeds a BFS round with the next polygon id. -/
def groupLoop (segs : List GSeg) : List ℕ → ℕ → List (Option ℕ) → ℕ × List (Option ℕ)
  | [], pid, asn => (pid, asn)
  | i :: rest, pid, asn =>
    if (asn.getD i none).isSome then groupLoop segs rest pid asn
    else groupLoop segs rest (pid + 1) (bfs segs (pid + 1) asn [i])

/-- `group_stair_polygons` without the I/O and visualisation: returns the
final `polygon_id` counter and, for every segment index, the
`stair_polygon_id` it receives (`none` = no id key added). -/
def groupStairPolygons (segs : List GSeg) : ℕ × List (Option ℕ) :=
  groupLoop segs (stairIndices segs) 0 (List.replicate segs.length none)

/-- Two segment indices are adjacent when both hold stair segments and the
segments share an exact endpoint vertex (the relation that
`vertex_to_segments` encodes). -/
def Adj (segs : List GSeg) (i j : ℕ) : Prop :=
  ∃ si sj, segs.get? i = some si ∧ segs.get? j = some sj ∧
    si.type = SegType.stair ∧ sj.type = SegType.stair ∧
    (gpt1 si = gpt1 sj ∨ gpt1 si = gpt2 sj ∨ gpt2 si = gpt1 sj ∨ gpt2 si = gpt2 sj)

/-- The triangle-plus-disjoint-stair scenario: stairs `A-B`, `B-C`, `C-A`
with `A=(0,0)`, `B=(10,0)`, `C=(5,8)`, a disjoint stair `D-E` with
`D=(100,100)`, `E=(110,100)`, and one wall. -/
def stairTriangleExample : List GSeg :=
  [⟨0, 0, 10, 0, SegType.stair⟩, ⟨10, 0, 5, 8, SegType.stair⟩,
   ⟨5, 8, 0, 0, SegType.stair⟩, ⟨100, 100, 110, 100, SegType.stair⟩,
   ⟨0, 0, 100, 0, SegType.wall⟩]

theorem Adj_symm {segs : List GSeg} {i j : ℕ} (h : Adj segs i j) : Adj segs j i := by
  obtain ⟨si, sj, h1, h2, h3, h4, h5⟩ := h
  refine ⟨sj, si, h2, h1, h4, h3, ?_⟩
  rcases h5 with h | h | h | h
  · exact Or.inl h.symm
  · exact Or.inr (Or.inr (Or.inl h.symm))
  · exact Or.inr (Or.inl h.symm)
  · exact Or.inr (Or.inr (Or.inr h.symm))

theorem mem_vertexUses {segs : List GSeg} {v : ℤ × ℤ} {j : ℕ} :
    j ∈ vertexUses segs v ↔
      ∃ s, segs.get? j = some s ∧ s.type = SegType.stair ∧ (gpt1 s = v ∨ gpt2 s = v) := by
  unfold vertexUses
  rw [List.mem_flatMap]
  constructor
  · rintro ⟨q, hq, hj⟩
    have hgq : segs.get? q.1 = some q.2 := by
      rw [List.get?_eq_getElem?]
      exact List.mem_enum_iff_getElem?.mp hq
    by_cases h1 : q.2.type = SegType.stair
    · rw [if_pos h1, List.mem_append] at hj
      have hj' : j = q.1 ∧ (gpt1 q.2 = v ∨ gpt2 q.2 = v) := by
        rcases hj with h | h <;> split at h <;> simp_all
      refine ⟨q.2, ?_, h1, hj'.2⟩
      rw [hj'.1]; exact hgq
    · rw [if_neg h1] at hj
      exact absurd hj (List.not_mem_nil j)
  · rintro ⟨s, hs, hst, hv⟩
    refine ⟨(j, s), ?_, ?_⟩
    · exact List.mem_enum_iff_getElem?.mpr (by rw [← List.get?_eq_getElem?]; exact hs)
    · rw [if_pos hst, List.mem_append]
      rcases hv with h | h
      · exact Or.inl (by rw [if_pos h]; exact List.mem_singleton.mpr rfl)
      · exact Or.inr (by rw [if_pos h]; exact List.mem_singleton.mpr rfl)

theorem vertexUses_lt {segs : List GSeg} {v : ℤ × ℤ} {j : ℕ}
    (h : j ∈ vertexUses segs v) : j < segs.length := by
  obtain ⟨s, hs, -, -⟩ := mem_vertexUses.mp h
  obtain ⟨hlt, -⟩ := List.get?_eq_some.mp hs
  exact hlt

theorem isStairAt_iff {segs : List GSeg} {j : ℕ} :
    isStairAt segs j = true ↔ ∃ s, segs.get? j = some s ∧ s.type = SegType.stair := by
  unfold isStairAt
  cases h : segs.get? j <;> simp [h]

theorem isStairAt_of_mem_vertexUses {segs : List GSeg} {v : ℤ × ℤ} {j : ℕ}
    (h : j ∈ vertexUses segs v) : isStairAt segs j = true := by
  obtain ⟨s, hs, hst, -⟩ := mem_vertexUses.mp h
  exact isStairAt_iff.mpr ⟨s, hs, hst⟩

theorem mem_stairIndices {segs : List GSeg} {j : ℕ} :
    j ∈ stairIndices segs ↔ isStairAt segs j = true := by
  unfold stairIndices
  rw [isStairAt_iff, List.mem_map]
  constructor
  · rintro ⟨q, hq, rfl⟩
    rw [List.mem_filter] at hq
    refine ⟨q.2, ?_, by simpa using hq.2⟩
    rw [List.get?_eq_getElem?]
    exact List.mem_enum_iff_getElem?.mp hq.1
  · rintro ⟨s, hs, hst⟩
    refine ⟨(j, s), List.mem_filter.mpr ⟨?_, by simpa using hst⟩, rfl⟩
    exact List.mem_enum_iff_getElem?.mpr (by rw [← List.get?_eq_getElem?]; exact hs)

theorem stairIndices_lt {segs : List GSeg} {j : ℕ}
    (h : j ∈ stairIndices segs) : j < segs.length := by
  obtain ⟨s, hs, -⟩ := isStairAt_iff.mp (mem_stairIndices.mp h)
  obtain ⟨hlt, -⟩ := List.get?_eq_some.mp hs
  exact hlt

theorem pairwise_fst_lt_enumFrom (l : List GSeg) :
    ∀ n : ℕ, (l.enumFrom n).Pairwise (fun a b => a.1 < b.1) := by
  induction l with
  | nil => intro n; simp
  | cons x xs ih =>
    intro n
    rw [List.enumFrom_cons]
    refine List.Pairwise.cons ?_ (ih (n + 1))
    intro b hb
    have h := (List.mem_enumFrom hb).1
    omega

theorem stairIndices_sorted (segs : List GSeg) :
    (stairIndices segs).Pairwise (· < ·) := by
  unfold stairIndices
  refine List.Pairwise.map Prod.fst (fun a b h => h) ?_
  refine List.Pairwise.sublist (List.filter_sublist _) ?_
  have h := pairwise_fst_lt_enumFrom segs 0
  simpa [List.enum] using h

theorem getD_set_self : ∀ (l : List (Option ℕ)) (i : ℕ), i < l.length → ∀ p : ℕ,
    (l.set i (some p)).getD i none = some p := by
  intro l
  induction l with
  | nil => intro i hi; simp at hi
  | cons o os ih =>
    intro i hi p
    cases i with
    | zero => rfl
    | succ i' => exact ih i' (by simpa using hi) p

theorem getD_set_ne : ∀ (l : List (Option ℕ)) (i j : ℕ), j ≠ i → ∀ a : Option ℕ,
    (l.set i a).getD j none = l.getD j none := by
  intro l
  induction l with
  | nil => intro i j h a; rfl
  | cons o os ih =>
    intro i j h a
    cases i with
    | zero =>
      cases j with
      | zero => exact absurd rfl h
      | succ j' => rfl
    | succ i' =>
      cases j with
      | zero => rfl
      | succ j' => exact ih i' j' (fun he => h (by rw [he])) a

theorem getD_none_of_le : ∀ (l : List (Option ℕ)) (j : ℕ), l.length ≤ j →
    l.getD j none = none := by
  intro l
  induction l with
  | nil => intro j h; rfl
  | cons o os ih =>
    intro j h
    cases j with
    | zero => simp at h
    | succ j' => exact ih j' (by simpa using h)

theorem getD_replicate_none : ∀ (n j : ℕ),
    (List.replicate n (none : Option ℕ)).getD j none = none := by
  intro n
  induction n with
  | zero => intro j; rfl
  | succ n ih =>
    intro j
    cases j with
    | zero => rfl
    | succ j' => exact ih j'

theorem flatMap_le_two (f : ℕ × GSeg → List ℕ) (h : ∀ q, (f q).length ≤ 2) :
    ∀ l : List (ℕ × GSeg), (l.flatMap f).length ≤ 2 * l.length := by
  intro l
  induction l with
  | nil => simp
  | cons x xs ih =>
    rw [List.flatMap_cons, List.length_append, List.length_cons]
    have := h x
    omega

theorem vertexUses_length_le (segs : List GSeg) (v : ℤ × ℤ) :
    (vertexUses segs v).length ≤ 2 * segs.length := by
  unfold vertexUses
  have h : ∀ q : ℕ × GSeg, ((if q.2.type = SegType.stair then
      (if gpt1 q.2 = v then [q.1] else []) ++ (if gpt2 q.2 = v then [q.1] else [])
      else []) : List ℕ).length ≤ 2 := by
    intro q
    split
    · rw [List.length_append]
      have h1 : (if gpt1 q.2 = v then [q.1] else []).length ≤ 1 := by split <;> simp
      have h2 : (if gpt2 q.2 = v then [q.1] else []).length ≤ 1 := by split <;> simp
      omega
    · simp
  calc (segs.enum.flatMap _).length ≤ 2 * segs.enum.length := flatMap_le_two _ h segs.enum
  _ = 2 * segs.length := by rw [List.enum_length]

theorem nbList_stair {segs : List GSeg} {pid : ℕ} {asn : List (Option ℕ)} {i : ℕ}
    {v : ℤ × ℤ} {j : ℕ} (h : j ∈ nbList segs pid asn i v) : isStairAt segs j = true :=
  isStairAt_of_mem_vertexUses (List.mem_filter.mp h).1

theorem nbList_lt {segs : List GSeg} {pid : ℕ} {asn : List (Option ℕ)} {i : ℕ}
    {v : ℤ × ℤ} {j : ℕ} (h : j ∈ nbList segs pid asn i v) : j < segs.length :=
  vertexUses_lt (List.mem_filter.mp h).1

theorem nbList_unassigned {segs : List GSeg} {pid : ℕ} {asn : List (Option ℕ)} {i : ℕ}
    {v : ℤ × ℤ} {j : ℕ} (h : j ∈ nbList segs pid asn i v) :
    ((asn.set i (some pid)).getD j none).isSome = false := by
  have h2 := (List.mem_filter.mp h).2
  simpa using h2

theorem nbList_length_le (segs : List GSeg) (pid : ℕ) (asn : List (Option ℕ)) (i : ℕ)
    (v : ℤ × ℤ) : (nbList segs pid asn i v).length ≤ 2 * segs.length :=
  le_trans (List.length_filter_le _ _) (vertexUses_length_le segs v)

theorem bfsFuel_cons_skip (segs : List GSeg) (pid f : ℕ) (asn : List (Option ℕ))
    (i : ℕ) (qs : List ℕ) (hs : (asn.getD i none).isSome = true) :
    bfsFuel segs pid (f + 1) asn (i :: qs) = bfsFuel segs pid f asn qs := by
  rw [bfsFuel, if_pos hs]

theorem bfsFuel_cons_assign (segs : List GSeg) (pid f : ℕ) (asn : List (Option ℕ))
    (i : ℕ) (qs : List ℕ) (hs : (asn.getD i none).isSome = false) (hi : i < asn.length) :
    bfsFuel segs pid (f + 1) asn (i :: qs) =
      bfsFuel segs pid f (asn.set i (some pid))
        (qs ++ nbList segs pid asn i (gpt1 (segs.getD i ⟨0, 0, 0, 0, SegType.wall⟩))
            ++ nbList segs pid asn i (gpt2 (segs.getD i ⟨0, 0, 0, 0, SegType.wall⟩))) := by
  rw [bfsFuel, if_neg (by rw [Bool.not_eq_true]; exact hs), if_pos hi]
  rfl

theorem bfsFuel_cons_oob (segs : List GSeg) (pid f : ℕ) (asn : List (Option ℕ))
    (i : ℕ) (qs : List ℕ) (hs : (asn.getD i none).isSome = false) (hi : ¬i < asn.length) :
    bfsFuel segs pid (f + 1) asn (i :: qs) = bfsFuel segs pid f asn qs := by
  rw [bfsFuel, if_neg (by rw [Bool.not_eq_true]; exact hs), if_neg hi]

theorem bfsFuel_length (segs : List GSeg) (pid : ℕ) :
    ∀ (f : ℕ) (asn : List (Option ℕ)) (queue : List ℕ),
      (bfsFuel segs pid f asn queue).length = asn.length := by
  intro f
  induction f with
  | zero => intro asn queue; rfl
  | succ f ih =>
    intro asn queue
    cases queue with
    | nil => rfl
    | cons i qs =>
      rw [bfsFuel]
      by_cases hs : (asn.getD i none).isSome = true
      · rw [if_pos hs]; exact ih asn qs
      · rw [if_neg hs]
        by_cases hi : i < asn.length
        · rw [if_pos hi]
          rw [ih]
          exact List.length_set asn i (some pid)
        · rw [if_neg hi]; exact ih asn qs

theorem bfsFuel_monotone (segs : List GSeg) (pid : ℕ) :
    ∀ (f : ℕ) (asn : List (Option ℕ)) (queue : List ℕ) (j p : ℕ),
      asn.getD j none = some p →
      (bfsFuel segs pid f asn queue).getD j none = some p := by
  intro f
  induction f with
  | zero => intro asn queue j p h; exact h
  | succ f ih =>
    intro asn queue j p h
    cases queue with
    | nil => exact h
    | cons i qs =>
      rw [bfsFuel]
      by_cases hs : (asn.getD i none).isSome = true
      · rw [if_pos hs]; exact ih asn qs j p h
      · rw [if_neg hs]
        by_cases hi : i < asn.length
        · rw [if_pos hi]
          have hji : j ≠ i := by
            intro he
            rw [← he, h] at hs
            exact hs rfl
          exact ih _ _ j p (by rw [getD_set_ne asn i j hji]; exact h)
        · rw [if_neg hi]; exact ih asn qs j p h

theorem bfsFuel_values (segs : List GSeg) (pid : ℕ) :
    ∀ (f : ℕ) (asn : List (Option ℕ)) (queue : List ℕ) (j p : ℕ),
      (bfsFuel segs pid f asn queue).getD j none = some p →
      asn.getD j none = some p ∨ p = pid := by
  intro f
  induction f with
  | zero => intro asn queue j p h; exact Or.inl h
  | succ f ih =>
    intro asn queue j p h
    cases queue with
    | nil => exact Or.inl h
    | cons i qs =>
      rw [bfsFuel] at h
      by_cases hs : (asn.getD i none).isSome = true
      · rw [if_pos hs] at h; exact ih asn qs j p h
      · rw [if_neg hs] at h
        by_cases hi : i < asn.length
        · rw [if_pos hi] at h
          rcases ih _ _ j p h with h' | h'
          · by_cases hji : j = i
            · subst hji
              rw [getD_set_self asn j hi pid] at h'
              exact Or.inr (Option.some.inj h').symm
            · rw [getD_set_ne asn i j hji] at h'
              exact Or.inl h'
          · exact Or.inr h'
        · rw [if_neg hi] at h; exact ih asn qs j p h

theorem bfsFuel_stairs_only (segs : List GSeg) (pid : ℕ) :
    ∀ (f : ℕ) (asn : List (Option ℕ)) (queue : List ℕ),
      (∀ j ∈ queue, isStairAt segs j = true) →
      ∀ j : ℕ, (bfsFuel segs pid f asn queue).getD j none ≠ asn.getD j none →
        isStairAt segs j = true := by
  intro f
  induction f with
  | zero => intro asn queue _ j h; exact absurd rfl h
  | succ f ih =>
    intro asn queue hq j h
    cases queue with
    | nil => exact absurd rfl h
    | cons i qs =>
      by_cases hs : (asn.getD i none).isSome = true
      · rw [bfsFuel_cons_skip segs pid f asn i qs hs] at h
        exact ih asn qs (fun j' hj' => hq j' (List.mem_cons_of_mem i hj')) j h
      · have hs' : (asn.getD i none).isSome = false := by simpa using hs
        by_cases hi : i < asn.length
        · rw [bfsFuel_cons_assign segs pid f asn i qs hs' hi] at h
          by_cases hji : j = i
          · exact hji ▸ hq i (List.mem_cons_self i qs)
          · refine ih (asn.set i (some pid))
              (qs ++ nbList segs pid asn i (gpt1 (segs.getD i ⟨0, 0, 0, 0, SegType.wall⟩))
                  ++ nbList segs pid asn i (gpt2 (segs.getD i ⟨0, 0, 0, 0, SegType.wall⟩)))
              ?_ j ?_
            · intro j' hj'
              rcases List.mem_append.mp hj' with hj' | hj'
              · rcases List.mem_append.mp hj' with hj' | hj'
                · exact hq j' (List.mem_cons_of_mem i hj')
                · exact nbList_stair hj'
              · exact nbList_stair hj'
            · intro he
              rw [getD_set_ne asn i j hji] at he
              exact h he
        · rw [bfsFuel_cons_oob segs pid f asn i qs hs' hi] at h
          exact ih asn qs (fun j' hj' => hq j' (List.mem_cons_of_mem i hj')) j h

theorem fuel_step (segs : List GSeg) {asn : List (Option ℕ)} {i : ℕ} (hi : i < asn.length)
    (hns : (asn.getD i none).isSome = false) (pid : ℕ) (qs nb1 nb2 : List ℕ)
    (h1 : nb1.length ≤ 2 * segs.length) (h2 : nb2.length ≤ 2 * segs.length) {f : ℕ}
    (hf : asn.countP (fun o => o.isNone) * (4 * segs.length + 1) + (i :: qs).length + 1 ≤ f + 1) :
    (asn.set i (some pid)).countP (fun o => o.isNone) * (4 * segs.length + 1) +
      (qs ++ nb1 ++ nb2).length + 1 ≤ f := by
  have hc := countP_isNone_set_lt pid asn i hi hns
  have hmul : ((asn.set i (some pid)).countP (fun o => o.isNone) + 1) * (4 * segs.length + 1) ≤
      asn.countP (fun o => o.isNone) * (4 * segs.length + 1) :=
    Nat.mul_le_mul_right (4 * segs.length + 1) hc
  rw [Nat.add_mul, Nat.one_mul] at hmul
  simp only [List.length_append, List.length_cons] at hf ⊢
  omega

theorem bfsFuel_queue_assigned (segs : List GSeg) (pid : ℕ) :
    ∀ (f : ℕ) (asn : List (Option ℕ)) (queue : List ℕ),
      asn.length = segs.length →
      (∀ j ∈ queue, j < segs.length) →
      asn.countP (fun o => o.isNone) * (4 * segs.length + 1) + queue.length + 1 ≤ f →
      ∀ j ∈ queue, ((bfsFuel segs pid f asn queue).getD j none).isSome = true := by
  intro f
  induction f with
  | zero =>
    intro asn queue _ _ hf j hj
    omega
  | succ f ih =>
    intro asn queue hlen hq hf j hj
    cases queue with
    | nil => exact absurd hj (List.not_mem_nil j)
    | cons i qs =>
      by_cases hs : (asn.getD i none).isSome = true
      · rw [bfsFuel_cons_skip segs pid f asn i qs hs]
        rcases List.mem_cons.mp hj with rfl | hj'
        · obtain ⟨p, hp⟩ := Option.isSome_iff_exists.mp hs
          rw [bfsFuel_monotone segs pid f asn qs j p hp]
          rfl
        · refine ih asn qs hlen (fun x hx => hq x (List.mem_cons_of_mem i hx)) ?_ j hj'
          simp only [List.length_cons] at hf
          omega
      · have hs' : (asn.getD i none).isSome = false := by simpa using hs
        by_cases hi : i < asn.length
        · rw [bfsFuel_cons_assign segs pid f asn i qs hs' hi]
          have hstep := fuel_step segs hi hs' pid qs
            (nbList segs pid asn i (gpt1 (segs.getD i ⟨0, 0, 0, 0, SegType.wall⟩)))
            (nbList segs pid asn i (gpt2 (segs.getD i ⟨0, 0, 0, 0, SegType.wall⟩)))
            (nbList_length_le segs pid asn i _) (nbList_length_le segs pid asn i _) hf
          rcases List.mem_cons.mp hj with rfl | hj'
          · rw [bfsFuel_monotone segs pid f _ _ j pid (getD_set_self asn j hi pid)]
            rfl
          · refine ih (asn.set i (some pid)) _ ?_ ?_ hstep j
              (List.mem_append.mpr (Or.inl (List.mem_append.mpr (Or.inl hj'))))
            · rw [List.length_set]; exact hlen
            · intro x hx
              rcases List.mem_append.mp hx with hx | hx
              · rcases List.mem_append.mp hx with hx | hx
                · exact hq x (List.mem_cons_of_mem i hx)
                · exact nbList_lt hx
              · exact nbList_lt hx
        · exact absurd (by rw [hlen]; exact hq i (List.mem_cons_self i qs)) hi

theorem getD_of_get? : ∀ (l : List GSeg) (i : ℕ) (d a : GSeg), l.get? i = some a →
    l.getD i d = a := by
  intro l
  induction l with
  | nil => intro i d a h; exact absurd h (by simp)
  | cons x xs ih =>
    intro i d a h
    cases i with
    | zero => exact Option.some.inj h
    | succ i' => exact ih i' d a h

/-- Invariant of one BFS round: (1) components of ids other than the current
one are already closed under adjacency and stay closed; (2) at the end of the
round the component of the current id is closed as well (every neighbour of a
current-id segment ends up assigned). -/
theorem bfsFuel_adj (segs : List GSeg) (pid : ℕ) :
    ∀ (f : ℕ) (asn : List (Option ℕ)) (queue : List ℕ),
      asn.length = segs.length →
      (∀ j ∈ queue, j < segs.length) →
      asn.countP (fun o => o.isNone) * (4 * segs.length + 1) + queue.length + 1 ≤ f →
      (∀ i j p, Adj segs i j → asn.getD i none = some p → p ≠ pid →
        asn.getD j none = some p) →
      (∀ i j, Adj segs i j → asn.getD i none = some pid →
        ((asn.getD j none).isSome = true ∨ j ∈ queue)) →
      (∀ i j p, Adj segs i j → (bfsFuel segs pid f asn queue).getD i none = some p →
        p ≠ pid → (bfsFuel segs pid f asn queue).getD j none = some p) ∧
      (∀ i j, Adj segs i j → (bfsFuel segs pid f asn queue).getD i none = some pid →
        ((bfsFuel segs pid f asn queue).getD j none).isSome = true) := by
  intro f
  induction f with
  | zero =>
    intro asn queue _ _ hf _ _
    omega
  | succ f ih =>
    intro asn queue hlen hq hf hA hB
    cases queue with
    | nil =>
      constructor
      · intro i j p hadj hi hp
        exact hA i j p hadj hi hp
      · intro i j hadj hi
        rcases hB i j hadj hi with h | h
        · exact h
        · exact absurd h (List.not_mem_nil j)
    | cons i qs =>
      by_cases hs : (asn.getD i none).isSome = true
      · rw [bfsFuel_cons_skip segs pid f asn i qs hs]
        refine ih asn qs hlen (fun x hx => hq x (List.mem_cons_of_mem i hx)) ?_ hA ?_
        · simp only [List.length_cons] at hf
          omega
        · intro i' j hadj hp
          rcases hB i' j hadj hp with h | h
          · exact Or.inl h
          · rcases List.mem_cons.mp h with rfl | h'
            · exact Or.inl hs
            · exact Or.inr h'
      · have hs' : (asn.getD i none).isSome = false := by simpa using hs
        by_cases hi : i < asn.length
        · rw [bfsFuel_cons_assign segs pid f asn i qs hs' hi]
          have hstep := fuel_step segs hi hs' pid qs
            (nbList segs pid asn i (gpt1 (segs.getD i ⟨0, 0, 0, 0, SegType.wall⟩)))
            (nbList segs pid asn i (gpt2 (segs.getD i ⟨0, 0, 0, 0, SegType.wall⟩)))
            (nbList_length_le segs pid asn i _) (nbList_length_le segs pid asn i _) hf
          refine ih (asn.set i (some pid))
            (qs ++ nbList segs pid asn i (gpt1 (segs.getD i ⟨0, 0, 0, 0, SegType.wall⟩))
                ++ nbList segs pid asn i (gpt2 (segs.getD i ⟨0, 0, 0, 0, SegType.wall⟩)))
            ?_ ?_ hstep ?_ ?_
          · rw [List.length_set]; exact hlen
          · intro x hx
            rcases List.mem_append.mp hx with hx | hx
            · rcases List.mem_append.mp hx with hx | hx
              · exact hq x (List.mem_cons_of_mem i hx)
              · exact nbList_lt hx
            · exact nbList_lt hx
          · intro i' j p hadj hp hppid
            by_cases hii : i' = i
            · subst hii
              rw [getD_set_self asn i' hi pid] at hp
              exact absurd (Option.some.inj hp).symm hppid
            · rw [getD_set_ne asn i i' hii] at hp
              have hj := hA i' j p hadj hp hppid
              by_cases hji : j = i
              · subst hji
                rw [hj] at hs'
                simp at hs'
              · rw [getD_set_ne asn i j hji]
                exact hj
          · intro i' j hadj hp
            by_cases hjs : ((asn.set i (some pid)).getD j none).isSome = true
            · exact Or.inl hjs
            · have hjns : ((asn.set i (some pid)).getD j none).isSome = false := by
                simpa using hjs
              by_cases hii : i' = i
              · subst hii
                obtain ⟨si, sj, hgi, hgj, hsti, hstj, hshare⟩ := hadj
                have hsd : segs.getD i' ⟨0, 0, 0, 0, SegType.wall⟩ = si :=
                  getD_of_get? segs i' ⟨0, 0, 0, 0, SegType.wall⟩ si hgi
                have hjmem : j ∈ vertexUses segs (gpt1 si) ∨ j ∈ vertexUses segs (gpt2 si) := by
                  rcases hshare with h | h | h | h
                  · exact Or.inl (mem_vertexUses.mpr ⟨sj, hgj, hstj, Or.inl h.symm⟩)
                  · exact Or.inl (mem_vertexUses.mpr ⟨sj, hgj, hstj, Or.inr h.symm⟩)
                  · exact Or.inr (mem_vertexUses.mpr ⟨sj, hgj, hstj, Or.inl h.symm⟩)
                  · exact Or.inr (mem_vertexUses.mpr ⟨sj, hgj, hstj, Or.inr h.symm⟩)
                refine Or.inr ?_
                rcases hjmem with h | h
                · refine List.mem_append.mpr (Or.inl (List.mem_append.mpr (Or.inr ?_)))
                  rw [hsd]
                  exact List.mem_filter.mpr ⟨h, by simpa using hjns⟩
                · refine List.mem_append.mpr (Or.inr ?_)
                  rw [hsd]
                  exact List.mem_filter.mpr ⟨h, by simpa using hjns⟩
              · rw [getD_set_ne asn i i' hii] at hp
                rcases hB i' j hadj hp with h | h
                · exfalso
                  by_cases hjieq : j = i
                  · subst hjieq
                    exact hs h
                  · have hx : ((asn.set i (some pid)).getD j none).isSome = true := by
                      rw [getD_set_ne asn i j hjieq]; exact h
                    rw [hjns] at hx
                    exact Bool.false_ne_true hx
                · rcases List.mem_cons.mp h with rfl | h'
                  · exfalso
                    rw [getD_set_self asn j hi pid] at hjns
                    simp at hjns
                  · exact Or.inr (List.mem_append.mpr (Or.inl (List.mem_append.mpr (Or.inl h'))))
        · exact absurd (by rw [hlen]; exact hq i (List.mem_cons_self i qs)) hi

theorem bfs_length (segs : List GSeg) (pid : ℕ) (asn : List (Option ℕ)) (queue : List ℕ) :
    (bfs segs pid asn queue).length = asn.length :=
  bfsFuel_length segs pid _ asn queue

theorem bfs_monotone (segs : List GSeg) (pid : ℕ) (asn : List (Option ℕ)) (queue : List ℕ)
    (j p : ℕ) (h : asn.getD j none = some p) :
    (bfs segs pid asn queue).getD j none = some p :=
  bfsFuel_monotone segs pid _ asn queue j p h

theorem bfs_values (segs : List GSeg) (pid : ℕ) (asn : List (Option ℕ)) (queue : List ℕ)
    (j p : ℕ) (h : (bfs segs pid asn queue).getD j none = some p) :
    asn.getD j none = some p ∨ p = pid :=
  bfsFuel_values segs pid _ asn queue j p h

theorem bfs_stairs_only (segs : List GSeg) (pid : ℕ) (asn : List (Option ℕ)) (queue : List ℕ)
    (hq : ∀ j ∈ queue, isStairAt segs j = true) (j : ℕ)
    (h : (bfs segs pid asn queue).getD j none ≠ asn.getD j none) :
    isStairAt segs j = true :=
  bfsFuel_stairs_only segs pid _ asn queue hq j h

theorem bfs_queue_assigned (segs : List GSeg) (pid : ℕ) (asn : List (Option ℕ))
    (queue : List ℕ) (hlen : asn.length = segs.length)
    (hq : ∀ j ∈ queue, j < segs.length) :
    ∀ j ∈ queue, ((bfs segs pid asn queue).getD j none).isSome = true :=
  bfsFuel_queue_assigned segs pid _ asn queue hlen hq (le_refl _)

/-- Starting a BFS round on a state whose ids are all `< pid` and whose
components are closed under adjacency yields a state closed under adjacency. -/
theorem bfs_closed_of (segs : List GSeg) (pid : ℕ) (asn : List (Option ℕ)) (queue : List ℕ)
    (hlen : asn.length = segs.length)
    (hq : ∀ j ∈ queue, j < segs.length)
    (hvals : ∀ j p, asn.getD j none = some p → p < pid)
    (hclosed : ∀ i j p, Adj segs i j → asn.getD i none = some p → asn.getD j none = some p) :
    ∀ i j p, Adj segs i j → (bfs segs pid asn queue).getD i none = some p →
      (bfs segs pid asn queue).getD j none = some p := by
  have h := bfsFuel_adj segs pid (bfsFuelBound segs asn queue) asn queue hlen hq (le_refl _)
    (fun i j p hadj hp _ => hclosed i j p hadj hp)
    (fun i j hadj hp => absurd (hvals i pid hp) (lt_irrefl pid))
  intro i j p hadj hp
  unfold bfs at hp ⊢
  by_cases hppid : p = pid
  · subst hppid
    have hj := h.2 i j hadj hp
    obtain ⟨q, hq'⟩ := Option.isSome_iff_exists.mp hj
    by_cases hqpid : q = p
    · rw [hq', hqpid]
    · have hx := h.1 j i q (Adj_symm hadj) hq' hqpid
      rw [hx] at hp
      exact absurd (Option.some.inj hp) hqpid
  · exact h.1 i j p hadj hp hppid

/-- The full invariant of the outer loop of `group_stair_polygons`, by
induction over the remaining seed list. -/
theorem groupLoop_master (segs : List GSeg) :
    ∀ (rest : List ℕ) (pid : ℕ) (asn : List (Option ℕ)),
      asn.length = segs.length →
      rest.Pairwise (· < ·) →
      (∀ j ∈ rest, isStairAt segs j = true) →
      (∀ j ∈ rest, j < segs.length) →
      (∀ j, isStairAt segs j = true → ((asn.getD j none).isSome = true ∨ j ∈ rest)) →
      (∀ j, ((asn.getD j none).isSome = true) → isStairAt segs j = true) →
      (∀ j p, asn.getD j none = some p → 1 ≤ p ∧ p ≤ pid) →
      (∀ p, 1 ≤ p → p ≤ pid → ∃ s, asn.getD s none = some p ∧
        (∀ j, j < s → asn.getD j none ≠ some p) ∧ (∀ j ∈ rest, s < j)) →
      (∀ p q sp sq, 1 ≤ p → p < q → q ≤ pid →
        asn.getD sp none = some p → (∀ j, j < sp → asn.getD j none ≠ some p) →
        asn.getD sq none = some q → (∀ j, j < sq → asn.getD j none ≠ some q) →
        sp < sq) →
      (∀ i j p, Adj segs i j → asn.getD i none = some p → asn.getD j none = some p) →
      ((groupLoop segs rest pid asn).2.length = segs.length ∧
       (∀ j, isStairAt segs j = true →
         (((groupLoop segs rest pid asn).2.getD j none).isSome = true)) ∧
       (∀ j, (((groupLoop segs rest pid asn).2.getD j none).isSome = true) →
         isStairAt segs j = true) ∧
       (∀ j p, (groupLoop segs rest pid asn).2.getD j none = some p →
         1 ≤ p ∧ p ≤ (groupLoop segs rest pid asn).1) ∧
       (∀ p, 1 ≤ p → p ≤ (groupLoop segs rest pid asn).1 →
         ∃ s, (groupLoop segs rest pid asn).2.getD s none = some p ∧
           (∀ j, j < s → (groupLoop segs rest pid asn).2.getD j none ≠ some p)) ∧
       (∀ p q sp sq, 1 ≤ p → p < q → q ≤ (groupLoop segs rest pid asn).1 →
         (groupLoop segs rest pid asn).2.getD sp none = some p →
         (∀ j, j < sp → (groupLoop segs rest pid asn).2.getD j none ≠ some p) →
         (groupLoop segs rest pid asn).2.getD sq none = some q →
         (∀ j, j < sq → (groupLoop segs rest pid asn).2.getD j none ≠ some q) →
         sp < sq) ∧
       (∀ i j p, Adj segs i j → (groupLoop segs rest pid asn).2.getD i none = some p →
         (groupLoop segs rest pid asn).2.getD j none = some p)) := by
  intro rest
  induction rest with
  | nil =>
    intro pid asn hlen _ _ _ hP hc ha he he2 hd
    refine ⟨hlen, ?_, hc, ha, ?_, ?_, hd⟩
    · intro j hj
      rcases hP j hj with h | h
      · exact h
      · exact absurd h (List.not_mem_nil j)
    · intro p h1 h2
      obtain ⟨s, hs1, hs2, -⟩ := he p h1 h2
      exact ⟨s, hs1, hs2⟩
    · intro p q sp sq h1 h2 h3 hsp1 hsp2 hsq1 hsq2
      exact he2 p q sp sq h1 h2 h3 hsp1 hsp2 hsq1 hsq2
  | cons i rest ih =>
    intro pid asn hlen hsort hstair hlt hP hc ha he he2 hd
    by_cases hs : (asn.getD i none).isSome = true
    · rw [show groupLoop segs (i :: rest) pid asn = groupLoop segs rest pid asn from by
        rw [groupLoop, if_pos hs]]
      refine ih pid asn hlen (List.pairwise_cons.mp hsort).2
        (fun j hj => hstair j (List.mem_cons_of_mem i hj))
        (fun j hj => hlt j (List.mem_cons_of_mem i hj))
        ?_ hc ha ?_ he2 hd
      · intro j hj
        rcases hP j hj with h | h
        · exact Or.inl h
        · rcases List.mem_cons.mp h with rfl | h'
          · exact Or.inl hs
          · exact Or.inr h'
      · intro p h1 h2
        obtain ⟨s, hs1, hs2, hs3⟩ := he p h1 h2
        exact ⟨s, hs1, hs2, fun j hj => hs3 j (List.mem_cons_of_mem i hj)⟩
    · have hs' : (asn.getD i none).isSome = false := by simpa using hs
      rw [show groupLoop segs (i :: rest) pid asn =
          groupLoop segs rest (pid + 1) (bfs segs (pid + 1) asn [i]) from by
        rw [groupLoop, if_neg (by rw [Bool.not_eq_true]; exact hs')]]
      have hstairi : isStairAt segs i = true := hstair i (List.mem_cons_self i rest)
      have hilt : i < segs.length := hlt i (List.mem_cons_self i rest)
      have hq1 : ∀ j ∈ [i], j < segs.length := by
        intro j hj
        rw [List.mem_singleton.mp hj]
        exact hilt
      have hmono : ∀ j p, asn.getD j none = some p →
          (bfs segs (pid + 1) asn [i]).getD j none = some p :=
        fun j p h => bfs_monotone segs (pid + 1) asn [i] j p h
      have hvals : ∀ j p, (bfs segs (pid + 1) asn [i]).getD j none = some p →
          asn.getD j none = some p ∨ p = pid + 1 :=
        fun j p h => bfs_values segs (pid + 1) asn [i] j p h
      have hiF : (bfs segs (pid + 1) asn [i]).getD i none = some (pid + 1) := by
        have h1 := bfs_queue_assigned segs (pid + 1) asn [i] hlen hq1 i
          (List.mem_singleton.mpr rfl)
        obtain ⟨p, hp⟩ := Option.isSome_iff_exists.mp h1
        rcases hvals i p hp with h' | h'
        · rw [h'] at hs'
          exact absurd hs' (by simp)
        · rw [h'] at hp
          exact hp
      have hnew : ∀ j, (bfs segs (pid + 1) asn [i]).getD j none = some (pid + 1) → i ≤ j := by
        intro j hj
        have hjasn : asn.getD j none = none := by
          cases ho : asn.getD j none with
          | none => rfl
          | some p' =>
            have hx := hmono j p' ho
            rw [hj] at hx
            have h3 := Option.some.inj hx
            have h2 := (ha j p' ho).2
            omega
        have hjstair : isStairAt segs j = true := by
          refine bfs_stairs_only segs (pid + 1) asn [i] ?_ j ?_
          · intro x hx
            rw [List.mem_singleton.mp hx]
            exact hstairi
          · rw [hj, hjasn]
            simp
        rcases hP j hjstair with h' | h'
        · rw [hjasn] at h'
          exact absurd h' (by simp)
        · rcases List.mem_cons.mp h' with rfl | h''
          · exact le_refl _
          · exact le_of_lt ((List.pairwise_cons.mp hsort).1 j h'')
      have hFclosed : ∀ i' j p, Adj segs i' j →
          (bfs segs (pid + 1) asn [i]).getD i' none = some p →
          (bfs segs (pid + 1) asn [i]).getD j none = some p :=
        bfs_closed_of segs (pid + 1) asn [i] hlen hq1
          (fun j p hp => by have := (ha j p hp).2; omega)
          hd
      refine ih (pid + 1) (bfs segs (pid + 1) asn [i]) ?_ (List.pairwise_cons.mp hsort).2
        (fun j hj => hstair j (List.mem_cons_of_mem i hj))
        (fun j hj => hlt j (List.mem_cons_of_mem i hj))
        ?_ ?_ ?_ ?_ ?_ hFclosed
      · rw [bfs_length]
        exact hlen
      · intro j hj
        rcases hP j hj with h' | h'
        · obtain ⟨p, hp⟩ := Option.isSome_iff_exists.mp h'
          exact Or.inl (by rw [hmono j p hp]; rfl)
        · rcases List.mem_cons.mp h' with rfl | h''
          · exact Or.inl (by rw [hiF]; rfl)
          · exact Or.inr h''
      · intro j hj
        obtain ⟨p, hp⟩ := Option.isSome_iff_exists.mp hj
        cases ho : asn.getD j none with
        | some p' => exact hc j (by rw [ho]; rfl)
        | none =>
          refine bfs_stairs_only segs (pid + 1) asn [i]
            (fun x hx => by rw [List.mem_singleton.mp hx]; exact hstairi) j ?_
          rw [hp, ho]
          simp
      · intro j p hp
        rcases hvals j p hp with h' | h'
        · have := ha j p h'
          omega
        · omega
      · intro p h1 h2
        by_cases hple : p ≤ pid
        · obtain ⟨s, hs1, hs2, hs3⟩ := he p h1 hple
          refine ⟨s, hmono s p hs1, ?_, fun j hj => hs3 j (List.mem_cons_of_mem i hj)⟩
          intro j hjs hcon
          rcases hvals j p hcon with h' | h'
          · exact hs2 j hjs h'
          · omega
        · have hpeq : p = pid + 1 := by omega
          subst hpeq
          refine ⟨i, hiF, ?_, ?_⟩
          · intro j hji hcon
            exact absurd (hnew j hcon) (by omega)
          · intro j hj
            exact (List.pairwise_cons.mp hsort).1 j hj
      · intro p q sp sq h1 h2 h3 hsp1 hsp2 hsq1 hsq2
        by_cases hqle : q ≤ pid
        · have hp' : asn.getD sp none = some p := by
            rcases hvals sp p hsp1 with h' | h'
            · exact h'
            · omega
          have hq' : asn.getD sq none = some q := by
            rcases hvals sq q hsq1 with h' | h'
            · exact h'
            · omega
          refine he2 p q sp sq h1 h2 hqle hp' ?_ hq' ?_
          · intro j hj hcon
            exact hsp2 j hj (hmono j p hcon)
          · intro j hj hcon
            exact hsq2 j hj (hmono j q hcon)
        · have hqeq : q = pid + 1 := by omega
          subst hqeq
          have hple : p ≤ pid := by omega
          obtain ⟨s, hs1, hs2, hs3⟩ := he p h1 hple
          have hsps : sp = s := by
            have hFs : (bfs segs (pid + 1) asn [i]).getD s none = some p := hmono s p hs1
            have h1' : asn.getD sp none = some p := by
              rcases hvals sp p hsp1 with h' | h'
              · exact h'
              · omega
            rcases lt_trichotomy sp s with hlt' | heq | hgt
            · exact absurd h1' (hs2 sp hlt')
            · exact heq
            · exact absurd hFs (hsp2 s hgt)
          have hsqi : sq = i := by
            rcases lt_trichotomy sq i with hlt' | heq | hgt
            · exact absurd (hnew sq hsq1) (by omega)
            · exact heq
            · exact absurd hiF (hsq2 i hgt)
          rw [hsps, hsqi]
          exact hs3 i (List.mem_cons_self i rest)

/-- The outcome of `group_stair_polygons` on an arbitrary segment list:
stairs are exactly the indexed segments with an id; one-step adjacency
preserves ids; ids lie in `[1, polygon_id]`; every id in range is realised,
and the minimal segment index of each id respects the id order (ids are
handed out in discovery order). -/
theorem groupStairPolygons_spec (segs : List GSeg) :
    (∀ j, isStairAt segs j = true ↔
      ((groupStairPolygons segs).2.getD j none).isSome = true) ∧
    (∀ i j p, Adj segs i j → (groupStairPolygons segs).2.getD i none = some p →
      (groupStairPolygons segs).2.getD j none = some p) ∧
    (∀ j p, (groupStairPolygons segs).2.getD j none = some p →
      1 ≤ p ∧ p ≤ (groupStairPolygons segs).1) ∧
    (∀ p, 1 ≤ p → p ≤ (groupStairPolygons segs).1 →
      ∃ s, (groupStairPolygons segs).2.getD s none = some p ∧
        ∀ j, j < s → (groupStairPolygons segs).2.getD j none ≠ some p) ∧
    (∀ p q sp sq, 1 ≤ p → p < q → q ≤ (groupStairPolygons segs).1 →
      (groupStairPolygons segs).2.getD sp none = some p →
      (∀ j, j < sp → (groupStairPolygons segs).2.getD j none ≠ some p) →
      (groupStairPolygons segs).2.getD sq none = some q →
      (∀ j, j < sq → (groupStairPolygons segs).2.getD j none ≠ some q) →
      sp < sq) := by
  have h := groupLoop_master segs (stairIndices segs) 0 (List.replicate segs.length none)
    (List.length_replicate segs.length none)
    (stairIndices_sorted segs)
    (fun j hj => mem_stairIndices.mp hj)
    (fun j hj => stairIndices_lt hj)
    (fun j hj => Or.inr (mem_stairIndices.mpr hj))
    (fun j hj => by rw [getD_replicate_none] at hj; exact absurd hj (by simp))
    (fun j p hp => by rw [getD_replicate_none] at hp; exact absurd hp (by simp))
    (fun p h1 h2 => by omega)
    (fun p q sp sq h1 h2 h3 _ _ _ _ => by omega)
    (fun i j p _ hp => by rw [getD_replicate_none] at hp; exact absurd hp (by simp))
  obtain ⟨-, h2, h3, h4, h5, h6, h7⟩ := h
  exact ⟨fun j => ⟨h2 j, h3 j⟩, h7, h4, h5, h6⟩

/-- **C6.** Partition invariant of PolygonGrouper, for every segment list:
(1) a segment receives a `stair_polygon_id` iff it is a stair segment (so
walls never receive one, and each stair receives exactly one);
(2) stair segments connected transitively through exactly shared endpoint
vertices receive the same id;
(3) ids lie in the consecutive range `[1, polygon_id]`, every id in that
range is used, and ids are handed out in discovery order over the segment
list (the first segment of a smaller id precedes the first segment of a
larger id).  Concretely, the closed stair triangle `A-B`, `B-C`, `C-A` all
receive id 1 and the disjoint stair `D-E` receives id 2. -/
theorem C6_polygon_grouper_partition :
    (∀ segs : List GSeg,
      (∀ j, isStairAt segs j = true ↔
        ((groupStairPolygons segs).2.getD j none).isSome = true) ∧
      (∀ i j, Relation.ReflTransGen (Adj segs) i j → ∀ p,
        (groupStairPolygons segs).2.getD i none = some p →
        (groupStairPolygons segs).2.getD j none = some p) ∧
      (∀ j p, (groupStairPolygons segs).2.getD j none = some p →
        1 ≤ p ∧ p ≤ (groupStairPolygons segs).1) ∧
      (∀ p, 1 ≤ p → p ≤ (groupStairPolygons segs).1 →
        ∃ s, (groupStairPolygons segs).2.getD s none = some p ∧
          ∀ j, j < s → (groupStairPolygons segs).2.getD j none ≠ some p) ∧
      (∀ p q sp sq, 1 ≤ p → p < q → q ≤ (groupStairPolygons segs).1 →
        (groupStairPolygons segs).2.getD sp none = some p →
        (∀ j, j < sp → (groupStairPolygons segs).2.getD j none ≠ some p) →
        (groupStairPolygons segs).2.getD sq none = some q →
        (∀ j, j < sq → (groupStairPolygons segs).2.getD j none ≠ some q) →
        sp < sq)) ∧
    groupStairPolygons stairTriangleExample =
      (2, [some 1, some 1, some 1, some 2, none]) := by
  constructor
  · intro segs
    obtain ⟨h1, h2, h3, h4, h5⟩ := groupStairPolygons_spec segs
    refine ⟨h1, ?_, h3, h4, h5⟩
    intro i j hrel p
    induction hrel with
    | refl => exact fun hp => hp
    | tail _ hbc ihp => exact fun hp => h2 _ _ p hbc (ihp hp)
  · decide

/-- Witness: the theorem applied to the triangle scenario.  Segments 0 and 2
share vertex `A=(0,0)`, so id 1 propagates from segment 0 to segment 2; the
id of segment 2 lies in `[1, 2]`; and the first segment of id 1 (index 0)
precedes the first segment of id 2 (index 3). -/
theorem C6_polygon_grouper_partition_witness :
    (groupStairPolygons stairTriangleExample).2.getD 2 none = some 1 ∧
    (1 ≤ 1 ∧ 1 ≤ (groupStairPolygons stairTriangleExample).1) ∧
    (0 : ℕ) < 3 :=
  ⟨(C6_polygon_grouper_partition.1 stairTriangleExample).2.1 0 2
      (Relation.ReflTransGen.single
        ⟨⟨0, 0, 10, 0, SegType.stair⟩, ⟨5, 8, 0, 0, SegType.stair⟩,
          rfl, rfl, rfl, rfl, Or.inr (Or.inl rfl)⟩)
      1 (by decide),
   (C6_polygon_grouper_partition.1 stairTriangleExample).2.2.1 2 1 (by decide),
   (C6_polygon_grouper_partition.1 stairTriangleExample).2.2.2.2 1 2 0 3
      (by decide) (by decide) (by decide) (by decide)
      (fun j hj => absurd hj (Nat.not_lt_zero j))
      (by decide)
      (by intro j hj; interval_cases j <;> decide)⟩

end MapCreator
